import Mathlib

/-!
# Verification of `avl_tree.hpp` (GuiBrandt/avl_tree)

Shallow embedding of the C++ class `avl_tree<int, std::less<int>, std::equal_to<int>>`
from `src/include/avl_tree.hpp`, together with proofs and refutations of the
specification claims.

A C++ `avl_tree*` pointer is modelled by `Tree`: either the null pointer
(`Tree.nil`) or a pointer to a node object carrying the five fields
`info` (a `T*`, i.e. `Option Int`), `left`, `right` (child pointers),
`_size` and `_height` (cached `int` counters).  The cached counters are kept
as explicit data, exactly as in the source: the code maintains them
incrementally (and, as we prove, sometimes incorrectly), so they may diverge
from the recomputed structural height and element count.

C++ exceptions (`throw "..."`) are modelled by an error result carrying the
exact thrown string together with the tree state left behind after unwinding
(the source performs no rollback).  Sites that are undefined behavior in C++
(dereferencing a null pointer, `front`/`top` on an empty container) are
modelled by a distinguished `ub` result where a result type is available;
they are unreachable from the public API on well-formed trees.
-/

namespace AvlSpec

/-- A (possibly null) pointer to an `avl_tree` object.  `node info left right size height`
mirrors the five data members `info`, `left`, `right`, `_size`, `_height`. -/
inductive Tree : Type where
  | nil : Tree
  | node (info : Option Int) (left right : Tree) (size height : Int) : Tree
deriving DecidableEq, Repr

/-- `t ? t->height() : 0` — the cached `_height`, with the source's null guard. -/
def heightP : Tree → Int
  | .nil => 0
  | .node _ _ _ _ h => h

/-- The cached `_size` field (`size()`), with a null guard for uniformity. -/
def sizeP : Tree → Int
  | .nil => 0
  | .node _ _ _ s _ => s

/-- The `info` field of the pointed-to node (`none` for the null pointer). -/
def infoOf : Tree → Option Int
  | .nil => none
  | .node i _ _ _ _ => i

/-- `empty()`: true iff `info == nullptr`.  (Calling it on a null pointer is UB
in C++ and unreachable; we return `true` there.) -/
def isEmptyT : Tree → Bool
  | .nil => true
  | .node i _ _ _ _ => i.isNone

/-- `balance_factor()`: cached height of `right` minus cached height of `left`.
(On the null pointer this is UB in C++; we return `0`, and all call sites we
rely on guard against it.) -/
def balanceFactor : Tree → Int
  | .nil => 0
  | .node _ l r _ _ => heightP r - heightP l

/-- `delete_if_empty(ptr)`: a non-null pointer to a node whose `info` is null is
deleted and replaced by the null pointer (the C++ `delete` also frees any
children; at every call site the node is childless). -/
def deleteIfEmpty : Tree → Tree
  | .nil => .nil
  | .node none _ _ _ _ => .nil
  | .node (some v) l r s h => .node (some v) l r s h

/-- `rotate_left()` on a node `X` with right child `Y`, including the source's
exact cached-field shuffle: `X._height -= 2; Y._height++; swap sizes;
X.right = Y.left; swap(*X, *Y); X.left = Y`.  The resulting root holds `Y`'s
value, `X`'s old `_size` and `Y`'s old `_height + 1`; the demoted node holds
`X`'s value, `Y`'s old `_size` and `X`'s old `_height - 2`.  With a null right
child the C++ dereferences null (unreachable); we return the tree unchanged. -/
def rotateLeft : Tree → Tree
  | .node iX lX (.node iY lY rY sY hY) sX hX =>
      .node iY (.node iX lX lY sY (hX - 2)) rY sX (hY + 1)
  | t => t

/-- `rotate_right()`, the mirror image of `rotateLeft`. -/
def rotateRight : Tree → Tree
  | .node iX (.node iY lY rY sY hY) rX sX hX =>
      .node iY lY (.node iX rY rX sY (hX - 2)) sX (hY + 1)
  | t => t

/-- `rebalance()`: if the cached balance factor leaves `[-1, 1]`, perform the
single or double rotation dictated by the child's cached balance factor. -/
def rebalance : Tree → Tree
  | .nil => .nil
  | .node i l r s h =>
      if heightP r - heightP l < -1 then
        rotateRight (.node i (if balanceFactor l > 0 then rotateLeft l else l) r s h)
      else if heightP r - heightP l > 1 then
        rotateLeft (.node i l (if balanceFactor r < 0 then rotateRight r else r) s h)
      else .node i l r s h

/-- `recalculate()`: set `_height` to `max(right->_height, left->_height) + 1`
(null children counting as `0`), then `rebalance()`. -/
def recalculate : Tree → Tree
  | .nil => .nil
  | .node i l r s _ =>
      rebalance (.node i l r s (max (heightP r) (heightP l) + 1))

/-- A freshly constructed `avl_tree` object: all fields zero / null. -/
def initTree : Tree := .node none .nil .nil 0 0

/-- `clear()` resets every field of the object. -/
def clearT : Tree → Tree := fun _ => initTree

/-- Result of a `void` member function: either the new tree state, or a thrown
C++ string together with the state after stack unwinding. -/
inductive Res : Type where
  | ok (t : Tree)
  | err (msg : String) (t : Tree)
deriving DecidableEq, Repr

/-- Result of a value-returning member function (`pop`, `popleft`). -/
inductive ResV : Type where
  | ok (v : Int) (t : Tree)
  | err (msg : String) (t : Tree)
deriving DecidableEq, Repr

/-- Continuation after `left->insert(data)` inside `insert`: on success the
node stores the new left child and runs `_size++; recalculate()`; a thrown
exception propagates, leaving the partially updated left child in place. -/
def insContL (v : Int) (r : Tree) (s h : Int) : Res → Res
  | .ok l2 => .ok (recalculate (.node (some v) l2 r (s + 1) h))
  | .err m l2 => .err m (.node (some v) l2 r s h)

/-- Continuation after `right->insert(data)` inside `insert` (mirror). -/
def insContR (v : Int) (l : Tree) (s h : Int) : Res → Res
  | .ok r2 => .ok (recalculate (.node (some v) l r2 (s + 1) h))
  | .err m r2 => .err m (.node (some v) l r2 s h)

/-- `insert(data)` with `Compare = std::less<int>`, `Equal = std::equal_to<int>`.
The source branch `left = new avl_tree(); left->insert(data)` (and its right
mirror) is inlined: inserting into a freshly constructed empty node yields
`node (some data) nil nil 1 1`; lemma `insert_fresh` checks the inlining
against `insert` itself.  The `nil` case is a call on a null pointer (UB,
unreachable from the public API). -/
def insert (data : Int) : Tree → Res
  | .nil => .err "null object" .nil
  | .node none l r s _ =>
      .ok (recalculate (.node (some data) l r (s + 1) 1))
  | .node (some v) l r s h =>
      if data = v then
        .err "Repeated information" (.node (some v) l r s h)
      else if data < v then
        match l with
        | .nil =>
            .ok (recalculate (.node (some v) (.node (some data) .nil .nil 1 1) r (s + 1) h))
        | .node li ll lr ls lh =>
            insContL v r s h (insert data (.node li ll lr ls lh))
      else
        match r with
        | .nil =>
            .ok (recalculate (.node (some v) l (.node (some data) .nil .nil 1 1) (s + 1) h))
        | .node ri rl rr rs rh =>
            insContR v l s h (insert data (.node ri rl rr rs rh))

/-- Inserting into a freshly constructed empty node produces exactly the value
inlined in `insert`'s and `update`'s new-child branches. -/
theorem insert_fresh (data : Int) :
    insert data initTree = .ok (.node (some data) .nil .nil 1 1) := rfl

/-- Continuation after `right->pop()` inside `pop`. -/
def popContR (v : Int) (l : Tree) (s h : Int) : ResV → ResV
  | .ok aux r2 => .ok aux (recalculate (.node (some v) l (deleteIfEmpty r2) s h))
  | .err m r2 => .err m (.node (some v) l r2 s h)

/-- Continuation after `left->popleft()` inside `pop`'s no-right-child branch:
the extracted minimum becomes the node's new `info`. -/
def popContL (v : Int) (s h : Int) : ResV → ResV
  | .ok m l2 => .ok v (recalculate (.node (some m) (deleteIfEmpty l2) .nil s h))
  | .err m l2 => .err m (.node (some v) l2 .nil s h)

/-- Continuation after `left->popleft()` inside `popleft`. -/
def popleftContL (v : Int) (r : Tree) (s h : Int) : ResV → ResV
  | .ok aux l2 => .ok aux (recalculate (.node (some v) (deleteIfEmpty l2) r s h))
  | .err m l2 => .err m (.node (some v) l2 r s h)

/-- Continuation after `right->pop()` inside `popleft`'s no-left-child branch. -/
def popleftContR (v : Int) (s h : Int) : ResV → ResV
  | .ok m r2 => .ok v (recalculate (.node (some m) .nil (deleteIfEmpty r2) s h))
  | .err m r2 => .err m (.node (some v) .nil r2 s h)

mutual

/-- `pop()`: remove and return the maximum.  Descends into `right` while
present; at the rightmost node the stored value is extracted and replaced by
`left->popleft()` (or the node becomes empty).  Note: `_size` is never
decremented.  On an empty node it throws; the null-pointer case is UB in C++
(unreachable). -/
def pop : Tree → ResV
  | .nil => .err "null object" .nil
  | .node none l r s h => .err "Can't pop from an empty tree" (.node none l r s h)
  | .node (some v) l r s h =>
      match r with
      | .node ri rl rr rs rh =>
          popContR v l s h (pop (.node ri rl rr rs rh))
      | .nil =>
          match l with
          | .node li ll lr ls lh =>
              popContL v s h (popleft (.node li ll lr ls lh))
          | .nil => .ok v (recalculate (.node none .nil .nil s h))

/-- `popleft()`: remove and return the minimum; mirror of `pop`. -/
def popleft : Tree → ResV
  | .nil => .err "null object" .nil
  | .node none l r s h => .err "Can't pop from an empty tree" (.node none l r s h)
  | .node (some v) l r s h =>
      match l with
      | .node li ll lr ls lh =>
          popleftContL v r s h (popleft (.node li ll lr ls lh))
      | .nil =>
          match r with
          | .node ri rl rr rs rh =>
              popleftContR v s h (pop (.node ri rl rr rs rh))
          | .nil => .ok v (recalculate (.node none .nil .nil s h))

end

/-- Continuation after `left->pop()` in `remove`'s matched branch: on success
the popped maximum overwrites `*info`, then `_size--; recalculate()`. -/
def remContPopL (r : Tree) (s h : Int) (v : Int) : ResV → Res
  | .ok pv l2 => .ok (recalculate (.node (some pv) (deleteIfEmpty l2) r (s - 1) h))
  | .err m l2 => .err m (.node (some v) l2 r s h)

/-- Continuation after `right->popleft()` in `remove`'s matched branch. -/
def remContPopR (s h : Int) (v : Int) : ResV → Res
  | .ok pv r2 => .ok (recalculate (.node (some pv) .nil (deleteIfEmpty r2) (s - 1) h))
  | .err m r2 => .err m (.node (some v) .nil r2 s h)

/-- Continuation after `left->remove(data)`. -/
def remContL (v : Int) (r : Tree) (s h : Int) : Res → Res
  | .ok l2 => .ok (recalculate (.node (some v) (deleteIfEmpty l2) r (s - 1) h))
  | .err m l2 => .err m (.node (some v) l2 r s h)

/-- Continuation after `right->remove(data)`. -/
def remContR (v : Int) (l : Tree) (s h : Int) : Res → Res
  | .ok r2 => .ok (recalculate (.node (some v) l (deleteIfEmpty r2) (s - 1) h))
  | .err m r2 => .err m (.node (some v) l r2 s h)

/-- `remove(data)`.  A matched node with a left child takes its replacement
value from `left->pop()`, otherwise from `right->popleft()`; a matched node
with no children empties itself (`_size = 0`, `_height = 0`) and returns early
without the trailing `_size--; recalculate()`.  The search follows the source
exactly, including the quirk that when `data < *info` but `left` is null the
search continues into `right`. -/
def remove (data : Int) : Tree → Res
  | .nil => .err "null object" .nil
  | .node none l r s h => .err "Can't remove from empty tree" (.node none l r s h)
  | .node (some v) l r s h =>
      if v = data then
        match l with
        | .node li ll lr ls lh =>
            remContPopL r s h v (pop (.node li ll lr ls lh))
        | .nil =>
            match r with
            | .node ri rl rr rs rh =>
                remContPopR s h v (popleft (.node ri rl rr rs rh))
            | .nil => .ok (.node none .nil .nil 0 0)
      else if l ≠ .nil ∧ data < v then
        remContL v r s h (remove data l)
      else if r ≠ .nil then
        remContR v l s h (remove data r)
      else
        .err "Information not found" (.node (some v) l r s h)

/-- `update(data)`: overwrite an equal value in place, otherwise descend; when
the target child is null the source calls `insert(data)` on the *current* node
(inlined here to its value, cf. `update_insert_branch`), and every call ends
with `recalculate()` — so the new-child branches recalculate twice. -/
def update (data : Int) : Tree → Tree
  | .nil => .nil
  | .node none l r s _ =>
      recalculate (recalculate (.node (some data) l r (s + 1) 1))
  | .node (some v) l r s h =>
      if data = v then recalculate (.node (some data) l r s h)
      else if data < v then
        match l with
        | .nil =>
            recalculate (recalculate (.node (some v) (.node (some data) .nil .nil 1 1) r (s + 1) h))
        | .node li ll lr ls lh =>
            recalculate (.node (some v) (update data (.node li ll lr ls lh)) r s h)
      else
        match r with
        | .nil =>
            recalculate (recalculate (.node (some v) l (.node (some data) .nil .nil 1 1) (s + 1) h))
        | .node ri rl rr rs rh =>
            recalculate (.node (some v) l (update data (.node ri rl rr rs rh)) s h)

/-- `update`'s inlined new-child branch agrees with calling `insert` on the
current node, as the source does (`data < v`, left null case shown). -/
theorem update_insert_branch (data v : Int) (r : Tree) (s h : Int)
    (hlt : data < v) (hne : ¬data = v) :
    insert data (.node (some v) .nil r s h) =
      .ok (recalculate (.node (some v) (.node (some data) .nil .nil 1 1) r (s + 1) h)) := by
  rw [insert.eq_def]
  simp only [if_neg hne, if_pos hlt]

/-- `find(data)`: returns the stored value equal to `data`, or `none`.  Follows
the source's search including its null-guard quirks. -/
def find (data : Int) : Tree → Option Int
  | .nil => none
  | .node none _ _ _ _ => none
  | .node (some v) l r _ _ =>
      if v = data then some v
      else if l ≠ Tree.nil ∧ data < v then find data l
      else if r ≠ Tree.nil then find data r
      else none

/-! ## Iterators -/

/-- Result of an iterator member function: a value, a thrown C++ string, or
undefined behavior (`front`/`top` on an empty standard container, or a null
dereference) — the source performs no check at UB sites. -/
inductive IterRes (α : Type) : Type where
  | ok (a : α)
  | thrown (msg : String)
  | ub
deriving DecidableEq, Repr

/-- State of a `level_iterator`: the `std::queue<std::pair<int, const avl_tree*>>`,
head = front.  (The `_level` member is written once in the constructor and
never read by the modelled operations, so it is omitted.) -/
abbrev LevelIter := List (Int × Tree)

/-- `level_iterator(const avl_tree* t)`: push `(0, t)` if `t` is non-null. -/
def mkLevelIter : Tree → LevelIter
  | .nil => []
  | .node i l r s h => [(0, .node i l r s h)]

/-- `end_by_level()`: an iterator over the null pointer (empty queue). -/
def endByLevel : LevelIter := mkLevelIter .nil

/-- `begin_by_level()`: `empty() ? end_by_level() : level_iterator(this)`. -/
def beginByLevel (t : Tree) : LevelIter :=
  if isEmptyT t then endByLevel else mkLevelIter t

/-- `level_iterator::operator++`: throws if the queue is empty; otherwise
pushes the front's non-null children at level+1 and pops the front. -/
def levelNext : LevelIter → IterRes LevelIter
  | [] => .thrown "Iterator ran out of bounds"
  | (lv, t) :: rest =>
      match t with
      | .nil => .ub
      | .node _ l r _ _ =>
          .ok (rest ++
            (match l with | .nil => [] | _ => [(lv + 1, l)]) ++
            (match r with | .nil => [] | _ => [(lv + 1, r)]))

/-- `level_iterator::operator*`: `*q.front().second->info`, with **no**
emptiness check — `front()` on an empty queue and dereferencing a null `info`
are undefined behavior. -/
def levelDeref : LevelIter → IterRes Int
  | [] => .ub
  | (_, t) :: _ =>
      match infoOf t with
      | some v => .ok v
      | none => .ub

/-- `level_iterator::operator==`: two empty queues are equal; an empty and a
non-empty queue differ; otherwise only the fronts are compared.  (Pointer
equality of the fronts is modelled as structural equality.) -/
def levelIterEq (a b : LevelIter) : Bool :=
  match a, b with
  | [], b => b.isEmpty
  | _ :: _, [] => false
  | x :: _, y :: _ => decide (x = y)

/-- State of an `inorder_iterator`: the `std::stack<const avl_tree*>`,
head = top. -/
abbrev InorderIter := List Tree

/-- `stack.push(t); while (stack.top()->left) stack.push(stack.top()->left)` —
push a node and descend its left spine.  On the null pointer nothing is pushed
(the source guards every push site). -/
def pushLeftSpine : Tree → InorderIter → InorderIter
  | .nil, st => st
  | .node i l r s h, st => pushLeftSpine l (.node i l r s h :: st)

/-- `inorder_iterator(const avl_tree* tree)`. -/
def mkInorderIter (t : Tree) : InorderIter := pushLeftSpine t []

/-- `end_in_order()`: iterator over the null pointer (empty stack). -/
def endInOrder : InorderIter := mkInorderIter .nil

/-- `begin_in_order()`: `empty() ? end_in_order() : inorder_iterator(this)`. -/
def beginInOrder (t : Tree) : InorderIter :=
  if isEmptyT t then endInOrder else mkInorderIter t

/-- `inorder_iterator::operator++`: throws if the stack is empty; otherwise
pops the top and pushes the left spine of its right child. -/
def inorderNext : InorderIter → IterRes InorderIter
  | [] => .thrown "Iterator ran out of bounds"
  | t :: rest =>
      match t with
      | .nil => .ub
      | .node _ _ r _ _ => .ok (pushLeftSpine r rest)

/-- `inorder_iterator::operator*`: `*stack.top()->info`, with **no** emptiness
check — `top()` on an empty stack is undefined behavior. -/
def inorderDeref : InorderIter → IterRes Int
  | [] => .ub
  | t :: _ =>
      match infoOf t with
      | some v => .ok v
      | none => .ub

/-- `inorder_iterator::operator==`: empty stacks compare equal, otherwise only
the tops are compared (pointer equality modelled as structural equality). -/
def inorderIterEq (a b : InorderIter) : Bool :=
  match a, b with
  | [], b => b.isEmpty
  | _ :: _, [] => false
  | x :: _, y :: _ => decide (x = y)

/-! ## Traversal drains

The driver loop `for (it = begin(); it != end(); it++) use(*it)` visits nodes
until the iterator equals the end iterator (i.e. its container is empty).  We
model the loop with explicit fuel so the drain stays computable; the adequacy
lemmas below show the fuel bound `stackMeasure` (resp. `levelMeasure`) always
suffices. -/

/-- Number of `node` constructors in a tree (null pointers contribute 0). -/
def nodes : Tree → Nat
  | .nil => 0
  | .node _ l r _ _ => 1 + nodes l + nodes r

/-- The right child of a pointed-to node. -/
def rightOf : Tree → Tree
  | .nil => .nil
  | .node _ _ r _ _ => r

/-- Termination fuel for draining an in-order iterator stack. -/
def stackMeasure : InorderIter → Nat
  | [] => 0
  | t :: rest => 1 + 2 * nodes (rightOf t) + stackMeasure rest

/-- Drain an in-order iterator with the given fuel, recording each visited
node (the node the loop body would dereference); `none` if the fuel runs out
or a null pointer sits on the stack (never happens for iterators built by the
API). -/
def visitOrderF : Nat → InorderIter → Option (List Tree)
  | _, [] => some []
  | 0, _ :: _ => none
  | fuel + 1, t :: rest =>
      match t with
      | .nil => none
      | .node i l r s h =>
          (visitOrderF fuel (pushLeftSpine r rest)).map (Tree.node i l r s h :: ·)

/-- The nodes of a tree in in-order (left, self, right). -/
def inorderNodes : Tree → List Tree
  | .nil => []
  | .node i l r s h => inorderNodes l ++ [Tree.node i l r s h] ++ inorderNodes r

/-- The nodes a full drain of `begin_in_order()` visits. -/
def inorderTrav (t : Tree) : Option (List Tree) :=
  visitOrderF (stackMeasure (beginInOrder t)) (beginInOrder t)

/-- The values a full in-order traversal yields (each visited node is
dereferenced by the loop body; a node with null `info` would be UB and yields
nothing here — trees built by the API never contain one). -/
def inorderSeq (t : Tree) : Option (List Int) :=
  (inorderTrav t).map (List.filterMap infoOf)

/-- Termination fuel for draining a level iterator queue. -/
def levelMeasure : LevelIter → Nat
  | [] => 0
  | (_, t) :: rest => nodes t + levelMeasure rest

/-- Drain a level-order iterator with the given fuel, recording the visited
`(level, node)` pairs. -/
def levelVisitF : Nat → LevelIter → Option (List (Int × Tree))
  | _, [] => some []
  | 0, _ :: _ => none
  | fuel + 1, (lv, t) :: rest =>
      match t with
      | .nil => none
      | .node i l r s h =>
          (levelVisitF fuel (rest ++
            (match l with | .nil => [] | _ => [(lv + 1, l)]) ++
            (match r with | .nil => [] | _ => [(lv + 1, r)]))).map
            ((lv, Tree.node i l r s h) :: ·)

/-- The `(level, node)` pairs a full drain of `begin_by_level()` visits. -/
def levelTrav (t : Tree) : Option (List (Int × Tree)) :=
  levelVisitF (levelMeasure (beginByLevel t)) (beginByLevel t)

/-! ## Specification-side (recomputed) notions -/

/-- Structural height, recomputed from the shape alone (an empty `info` slot
still occupies a node, but API-built trees only ever have one at an empty
root, which the claims treat as height 0 via `nodes = 0`). -/
def actualHeight : Tree → Nat
  | .nil => 0
  | .node _ l r _ _ => 1 + max (actualHeight l) (actualHeight r)

/-- The AVL balance condition on recomputed heights, at every subtree. -/
def avlBal : Tree → Bool
  | .nil => true
  | .node _ l r _ _ =>
      ((actualHeight r : Int) - (actualHeight l : Int)).natAbs ≤ 1 &&
      avlBal l && avlBal r

/-- Number of stored values (non-null `info` slots). -/
def count : Tree → Nat
  | .nil => 0
  | .node i l r _ _ => (if i.isSome then 1 else 0) + count l + count r

/-- Every node of the subtree stores a value. -/
def allFull : Tree → Bool
  | .nil => true
  | .node i l r _ _ => i.isSome && allFull l && allFull r

/-- The stored values in in-order. -/
def inorderList : Tree → List Int
  | .nil => []
  | .node i l r _ _ => inorderList l ++ i.toList ++ inorderList r

/-- Strict ascending order. -/
def strictAsc : List Int → Bool
  | [] => true
  | [_] => true
  | a :: b :: rest => a < b && strictAsc (b :: rest)

/-- Every stored value of the subtree satisfies `p`. -/
def allVals (p : Int → Bool) : Tree → Bool
  | .nil => true
  | .node i l r _ _ =>
      (match i with | some v => p v | none => true) && allVals p l && allVals p r

/-- Binary-search-tree ordering of the stored values. -/
def bst : Tree → Bool
  | .nil => true
  | .node i l r _ _ =>
      bst l && bst r &&
      (match i with
       | some v => allVals (fun x => x < v) l && allVals (fun x => v < x) r
       | none => true)

/-- Cached-counter health at every node: `_height` equals
`max(children heights) + 1` and the cached balance factor lies in `[-1, 1]`.
The source's rotations can break this even though `recalculate` is meant to
maintain it. -/
def cacheOK : Tree → Bool
  | .nil => true
  | .node _ l r _ h =>
      (h == max (heightP r) (heightP l) + 1) &&
      (-1 ≤ heightP r - heightP l && heightP r - heightP l ≤ 1) &&
      cacheOK l && cacheOK r

/-! ## Operation sequences -/

/-- One command of the public mutating API considered by the sequence claims. -/
inductive Op : Type where
  | ins (v : Int)
  | rem (v : Int)
  | clearOp
deriving DecidableEq, Repr

/-- Run one operation, keeping the after-exception state of a failed call and
counting successful inserts and removes (counters reset by `clear`, as the
spec counts "since the last clear"). -/
def stepOp : Tree × Nat × Nat → Op → Tree × Nat × Nat
  | (t, ni, nr), .ins v =>
      match insert v t with
      | .ok t2 => (t2, ni + 1, nr)
      | .err _ t2 => (t2, ni, nr)
  | (t, ni, nr), .rem v =>
      match remove v t with
      | .ok t2 => (t2, ni, nr + 1)
      | .err _ t2 => (t2, ni, nr)
  | _, .clearOp => (initTree, 0, 0)

/-- Run a sequence of operations on a default-constructed tree. -/
def runOps (ops : List Op) : Tree × Nat × Nat :=
  ops.foldl stepOp (initTree, 0, 0)

/-- Run a sequence of operations, requiring every one to succeed (`none` if
any throws) — the claims about "successful" operation sequences use this. -/
def runStrict (ops : List Op) : Option Tree :=
  ops.foldlM
    (fun t op =>
      match op with
      | .ins v => match insert v t with | .ok t2 => some t2 | .err _ _ => none
      | .rem v => match remove v t with | .ok t2 => some t2 | .err _ _ => none
      | .clearOp => some initTree)
    initTree

/-! ## Preservation lemmas for the rebalancing helpers

The rotations shuffle cached counters but permute the same nodes, so the
element count, the root's cached `_size`, fullness of the `info` slots and the
in-order value sequence are all preserved; `rebalance` and `recalculate` only
compose rotations. -/

theorem count_rotateLeft (t : Tree) : count (rotateLeft t) = count t := by
  cases t with
  | nil => rfl
  | node i l r s h =>
    cases r with
    | nil => rfl
    | node ri rl rr rs rh => simp [rotateLeft, count]; omega

theorem count_rotateRight (t : Tree) : count (rotateRight t) = count t := by
  cases t with
  | nil => rfl
  | node i l r s h =>
    cases l with
    | nil => rfl
    | node li ll lr ls lh => simp [rotateRight, count]; omega

theorem sizeP_rotateLeft (t : Tree) : sizeP (rotateLeft t) = sizeP t := by
  cases t with
  | nil => rfl
  | node i l r s h =>
    cases r with
    | nil => rfl
    | node ri rl rr rs rh => rfl

theorem sizeP_rotateRight (t : Tree) : sizeP (rotateRight t) = sizeP t := by
  cases t with
  | nil => rfl
  | node i l r s h =>
    cases l with
    | nil => rfl
    | node li ll lr ls lh => rfl

theorem allFull_rotateLeft (t : Tree) : allFull (rotateLeft t) = allFull t := by
  cases t with
  | nil => rfl
  | node i l r s h =>
    cases r with
    | nil => rfl
    | node ri rl rr rs rh =>
      simp [rotateLeft, allFull, Bool.and_assoc, Bool.and_comm, Bool.and_left_comm]

theorem allFull_rotateRight (t : Tree) : allFull (rotateRight t) = allFull t := by
  cases t with
  | nil => rfl
  | node i l r s h =>
    cases l with
    | nil => rfl
    | node li ll lr ls lh =>
      simp [rotateRight, allFull, Bool.and_assoc, Bool.and_comm, Bool.and_left_comm]

theorem inorderList_rotateLeft (t : Tree) : inorderList (rotateLeft t) = inorderList t := by
  cases t with
  | nil => rfl
  | node i l r s h =>
    cases r with
    | nil => rfl
    | node ri rl rr rs rh => simp [rotateLeft, inorderList]

theorem inorderList_rotateRight (t : Tree) : inorderList (rotateRight t) = inorderList t := by
  cases t with
  | nil => rfl
  | node i l r s h =>
    cases l with
    | nil => rfl
    | node li ll lr ls lh => simp [rotateRight, inorderList]

theorem rotateLeft_node_ne_nil (i : Option Int) (l r : Tree) (s h : Int) :
    rotateLeft (.node i l r s h) ≠ Tree.nil := by
  cases r with
  | nil => simp [rotateLeft]
  | node ri rl rr rs rh => simp [rotateLeft]

theorem rotateRight_node_ne_nil (i : Option Int) (l r : Tree) (s h : Int) :
    rotateRight (.node i l r s h) ≠ Tree.nil := by
  cases l with
  | nil => simp [rotateRight]
  | node li ll lr ls lh => simp [rotateRight]

theorem count_rebalance (i : Option Int) (l r : Tree) (s h : Int) :
    count (rebalance (.node i l r s h)) = count (.node i l r s h) := by
  have hl : count (if balanceFactor l > 0 then rotateLeft l else l) = count l := by
    split
    · exact count_rotateLeft l
    · rfl
  have hr : count (if balanceFactor r < 0 then rotateRight r else r) = count r := by
    split
    · exact count_rotateRight r
    · rfl
  rw [rebalance]
  split
  · rw [count_rotateRight]; simp [count, hl]
  · split
    · rw [count_rotateLeft]; simp [count, hr]
    · rfl

theorem sizeP_rebalance (i : Option Int) (l r : Tree) (s h : Int) :
    sizeP (rebalance (.node i l r s h)) = s := by
  rw [rebalance]
  split
  · rw [sizeP_rotateRight]; rfl
  · split
    · rw [sizeP_rotateLeft]; rfl
    · rfl

theorem allFull_rebalance (i : Option Int) (l r : Tree) (s h : Int) :
    allFull (rebalance (.node i l r s h)) = allFull (.node i l r s h) := by
  have hl : allFull (if balanceFactor l > 0 then rotateLeft l else l) = allFull l := by
    split
    · exact allFull_rotateLeft l
    · rfl
  have hr : allFull (if balanceFactor r < 0 then rotateRight r else r) = allFull r := by
    split
    · exact allFull_rotateRight r
    · rfl
  rw [rebalance]
  split
  · rw [allFull_rotateRight]; simp [allFull, hl]
  · split
    · rw [allFull_rotateLeft]; simp [allFull, hr]
    · rfl

theorem inorderList_rebalance (i : Option Int) (l r : Tree) (s h : Int) :
    inorderList (rebalance (.node i l r s h)) = inorderList (.node i l r s h) := by
  have hl : inorderList (if balanceFactor l > 0 then rotateLeft l else l) = inorderList l := by
    split
    · exact inorderList_rotateLeft l
    · rfl
  have hr : inorderList (if balanceFactor r < 0 then rotateRight r else r) = inorderList r := by
    split
    · exact inorderList_rotateRight r
    · rfl
  rw [rebalance]
  split
  · rw [inorderList_rotateRight]; simp [inorderList, hl]
  · split
    · rw [inorderList_rotateLeft]; simp [inorderList, hr]
    · rfl

theorem rebalance_node_ne_nil (i : Option Int) (l r : Tree) (s h : Int) :
    rebalance (.node i l r s h) ≠ Tree.nil := by
  rw [rebalance]
  split
  · exact rotateRight_node_ne_nil _ _ _ _ _
  · split
    · exact rotateLeft_node_ne_nil _ _ _ _ _
    · simp

theorem count_recalculate (i : Option Int) (l r : Tree) (s h : Int) :
    count (recalculate (.node i l r s h)) = count (.node i l r s h) := by
  rw [recalculate, count_rebalance]; rfl

theorem sizeP_recalculate (i : Option Int) (l r : Tree) (s h : Int) :
    sizeP (recalculate (.node i l r s h)) = s := by
  rw [recalculate, sizeP_rebalance]

theorem allFull_recalculate (i : Option Int) (l r : Tree) (s h : Int) :
    allFull (recalculate (.node i l r s h)) = allFull (.node i l r s h) := by
  rw [recalculate, allFull_rebalance]; rfl

theorem inorderList_recalculate (i : Option Int) (l r : Tree) (s h : Int) :
    inorderList (recalculate (.node i l r s h)) = inorderList (.node i l r s h) := by
  rw [recalculate, inorderList_rebalance]; rfl

theorem recalculate_node_ne_nil (i : Option Int) (l r : Tree) (s h : Int) :
    recalculate (.node i l r s h) ≠ Tree.nil := by
  rw [recalculate]; exact rebalance_node_ne_nil _ _ _ _ _

/-! ## Effects of `pop`, `popleft`, `insert`, `remove` -/

/-- Shape of a subtree returned by `pop`/`popleft`: still all-full, or a
childless emptied node (which `delete_if_empty` then prunes). -/
def fullOrEmptyLeaf (t : Tree) : Prop :=
  allFull t = true ∨ ∃ s h, t = Tree.node none Tree.nil Tree.nil s h

theorem count_deleteIfEmpty (t : Tree) (ht : fullOrEmptyLeaf t) :
    count (deleteIfEmpty t) = count t := by
  rcases ht with hf | ⟨s, h, rfl⟩
  · cases t with
    | nil => rfl
    | node i l r s h =>
      cases i with
      | none => simp [allFull] at hf
      | some v => rfl
  · rfl

theorem allFull_deleteIfEmpty (t : Tree) (ht : fullOrEmptyLeaf t) :
    allFull (deleteIfEmpty t) = true := by
  rcases ht with hf | ⟨s, h, rfl⟩
  · cases t with
    | nil => rfl
    | node i l r s h =>
      cases i with
      | none => simp [allFull] at hf
      | some v => exact hf
  · rfl

/-- The result `pop` guarantees on an all-full non-null subtree: success, the
cached `_size` *unchanged* (the source never decrements it), the element count
down by one, and an all-full (or emptied-childless) non-null result. -/
def popOk (t : Tree) : Prop :=
  ∃ v t2, pop t = ResV.ok v t2 ∧ sizeP t2 = sizeP t ∧ count t = count t2 + 1 ∧
    fullOrEmptyLeaf t2 ∧ t2 ≠ Tree.nil

/-- The corresponding guarantee for `popleft`. -/
def popleftOk (t : Tree) : Prop :=
  ∃ v t2, popleft t = ResV.ok v t2 ∧ sizeP t2 = sizeP t ∧ count t = count t2 + 1 ∧
    fullOrEmptyLeaf t2 ∧ t2 ≠ Tree.nil

theorem recalculate_none_leaf (s h : Int) :
    recalculate (Tree.node none Tree.nil Tree.nil s h) = Tree.node none Tree.nil Tree.nil s 1 := by
  simp [recalculate, rebalance, heightP]

theorem pop_popleft_spec : ∀ t : Tree, allFull t = true → t ≠ Tree.nil → popOk t ∧ popleftOk t := by
  intro t
  induction t with
  | nil => intro _ hn; exact absurd rfl hn
  | node i l r s h ihl ihr =>
    intro hf _
    rw [allFull, Bool.and_eq_true, Bool.and_eq_true] at hf
    obtain ⟨⟨hi, hfl⟩, hfr⟩ := hf
    obtain ⟨v, rfl⟩ := Option.isSome_iff_exists.mp hi
    constructor
    · -- popOk
      cases r with
      | node ri rl rr rs rh =>
        obtain ⟨vr, r2, hpop, hsz, hcnt, hfl2, hne2⟩ := (ihr hfr (by simp)).1
        refine ⟨vr, recalculate (.node (some v) l (deleteIfEmpty r2) s h), ?_, ?_, ?_, ?_, ?_⟩
        · show popContR v l s h (pop (.node ri rl rr rs rh)) = _
          rw [hpop]; rfl
        · rw [sizeP_recalculate]; rfl
        · rw [count_recalculate]
          simp only [count, count_deleteIfEmpty _ hfl2]
          simp [count] at hcnt ⊢
          omega
        · left
          rw [allFull_recalculate]
          simp [allFull, hfl, allFull_deleteIfEmpty _ hfl2]
        · exact recalculate_node_ne_nil _ _ _ _ _
      | nil =>
        cases l with
        | node li ll lr ls lh =>
          obtain ⟨vl, l2, hpop, hsz, hcnt, hfl2, hne2⟩ := (ihl hfl (by simp)).2
          refine ⟨v, recalculate (.node (some vl) (deleteIfEmpty l2) .nil s h), ?_, ?_, ?_, ?_, ?_⟩
          · show popContL v s h (popleft (.node li ll lr ls lh)) = _
            rw [hpop]; rfl
          · rw [sizeP_recalculate]; rfl
          · rw [count_recalculate]
            simp only [count, count_deleteIfEmpty _ hfl2]
            simp [count] at hcnt ⊢
            omega
          · left
            rw [allFull_recalculate]
            simp [allFull, allFull_deleteIfEmpty _ hfl2]
          · exact recalculate_node_ne_nil _ _ _ _ _
        | nil =>
          refine ⟨v, Tree.node none Tree.nil Tree.nil s 1, ?_, rfl, by simp [count], ?_, by simp⟩
          · show ResV.ok v (recalculate (.node none .nil .nil s h)) = _
            rw [recalculate_none_leaf]
          · right; exact ⟨s, 1, rfl⟩
    · -- popleftOk
      cases l with
      | node li ll lr ls lh =>
        obtain ⟨vl, l2, hpop, hsz, hcnt, hfl2, hne2⟩ := (ihl hfl (by simp)).2
        refine ⟨vl, recalculate (.node (some v) (deleteIfEmpty l2) r s h), ?_, ?_, ?_, ?_, ?_⟩
        · show popleftContL v r s h (popleft (.node li ll lr ls lh)) = _
          rw [hpop]; rfl
        · rw [sizeP_recalculate]; rfl
        · rw [count_recalculate]
          simp only [count, count_deleteIfEmpty _ hfl2]
          simp [count] at hcnt ⊢
          omega
        · left
          rw [allFull_recalculate]
          simp [allFull, hfr, allFull_deleteIfEmpty _ hfl2]
        · exact recalculate_node_ne_nil _ _ _ _ _
      | nil =>
        cases r with
        | node ri rl rr rs rh =>
          obtain ⟨vr, r2, hpop, hsz, hcnt, hfl2, hne2⟩ := (ihr hfr (by simp)).1
          refine ⟨v, recalculate (.node (some vr) .nil (deleteIfEmpty r2) s h), ?_, ?_, ?_, ?_, ?_⟩
          · show popleftContR v s h (pop (.node ri rl rr rs rh)) = _
            rw [hpop]; rfl
          · rw [sizeP_recalculate]; rfl
          · rw [count_recalculate]
            simp only [count, count_deleteIfEmpty _ hfl2]
            simp [count] at hcnt ⊢
            omega
          · left
            rw [allFull_recalculate]
            simp [allFull, allFull_deleteIfEmpty _ hfl2]
          · exact recalculate_node_ne_nil _ _ _ _ _
        | nil =>
          refine ⟨v, Tree.node none Tree.nil Tree.nil s 1, ?_, rfl, by simp [count], ?_, by simp⟩
          · show ResV.ok v (recalculate (.node none .nil .nil s h)) = _
            rw [recalculate_none_leaf]
          · right; exact ⟨s, 1, rfl⟩

/-- The children of this node are all-full subtrees (trivial for the null
pointer); holds both for an all-full tree and for an empty root. -/
def subtreesFull : Tree → Bool
  | .nil => true
  | .node _ l r _ _ => allFull l && allFull r

theorem allFull_imp_subtreesFull (t : Tree) (hf : allFull t = true) :
    subtreesFull t = true := by
  cases t with
  | nil => rfl
  | node i l r s h =>
    rw [allFull, Bool.and_eq_true, Bool.and_eq_true] at hf
    simp [subtreesFull, hf.1.2, hf.2]

theorem count_node (i : Option Int) (l r : Tree) (s h : Int) :
    count (.node i l r s h) = (if i.isSome then 1 else 0) + count l + count r := rfl

theorem count_nil : count Tree.nil = 0 := rfl

/-! Unfolding lemmas for `insert` on a value-bearing node, one per source
branch (the equation compiler splits `insert`'s equations by child shape, so
these give the branch-level reductions directly). -/

theorem insert_eq_found (d v : Int) (l r : Tree) (s h : Int) (he : d = v) :
    insert d (.node (some v) l r s h) = .err "Repeated information" (.node (some v) l r s h) := by
  cases l <;> cases r <;> simp [insert, he]

theorem insert_eq_lt_nil (d v : Int) (r : Tree) (s h : Int) (he : ¬d = v) (hlt : d < v) :
    insert d (.node (some v) .nil r s h) =
      .ok (recalculate (.node (some v) (.node (some d) .nil .nil 1 1) r (s + 1) h)) := by
  cases r <;> simp [insert, he, hlt]

theorem insert_eq_goleft (d v : Int) (li : Option Int) (ll lr : Tree) (ls lh : Int)
    (r : Tree) (s h : Int) (he : ¬d = v) (hlt : d < v) :
    insert d (.node (some v) (.node li ll lr ls lh) r s h) =
      insContL v r s h (insert d (.node li ll lr ls lh)) := by
  cases r <;> simp [insert, he, hlt]

theorem insert_eq_gt_nil (d v : Int) (l : Tree) (s h : Int) (he : ¬d = v) (hge : ¬d < v) :
    insert d (.node (some v) l .nil s h) =
      .ok (recalculate (.node (some v) l (.node (some d) .nil .nil 1 1) (s + 1) h)) := by
  cases l <;> simp [insert, he, hge]

theorem insert_eq_goright (d v : Int) (l : Tree) (ri : Option Int) (rl rr : Tree) (rs rh : Int)
    (s h : Int) (he : ¬d = v) (hge : ¬d < v) :
    insert d (.node (some v) l (.node ri rl rr rs rh) s h) =
      insContR v l s h (insert d (.node ri rl rr rs rh)) := by
  cases l <;> simp [insert, he, hge]

/-- Combined effects of `insert`: a thrown `insert` leaves the tree exactly as
it was (no partial mutation), and a successful one adds exactly one element,
increments the root's cached `_size` by one, and keeps the tree all-full. -/
theorem insert_cases : ∀ (t : Tree) (d : Int),
    (∀ m t2, insert d t = Res.err m t2 → t2 = t) ∧
    (∀ t2, insert d t = Res.ok t2 → count t2 = count t + 1 ∧ sizeP t2 = sizeP t + 1 ∧
      t2 ≠ Tree.nil ∧ (subtreesFull t = true → allFull t2 = true)) := by
  intro t
  induction t with
  | nil =>
    intro d
    constructor
    · intro m t2 hE
      simp [insert] at hE
      exact hE.2.symm
    · intro t2 hO
      simp [insert] at hO
  | node i l r s h ihl ihr =>
    intro d
    cases i with
    | none =>
      constructor
      · intro m t2 hE
        simp [insert] at hE
      · intro t2 hO
        simp only [insert, Res.ok.injEq] at hO
        subst hO
        refine ⟨?_, ?_, recalculate_node_ne_nil _ _ _ _ _, ?_⟩
        · rw [count_recalculate]; simp [count_node, count_nil]; omega
        · rw [sizeP_recalculate]; rfl
        · intro hsf
          rw [subtreesFull, Bool.and_eq_true] at hsf
          rw [allFull_recalculate]
          simp [allFull, hsf.1, hsf.2]
    | some v =>
      constructor
      · intro m t2 hE
        by_cases he : d = v
        · rw [insert_eq_found d v l r s h he] at hE
          simp only [Res.err.injEq] at hE
          exact hE.2.symm
        · by_cases hlt : d < v
          · cases l with
            | nil =>
              rw [insert_eq_lt_nil d v r s h he hlt] at hE
              simp at hE
            | node li ll lr ls lh =>
              rw [insert_eq_goleft d v li ll lr ls lh r s h he hlt] at hE
              cases hI : insert d (.node li ll lr ls lh) with
              | ok t3 =>
                rw [hI] at hE
                simp [insContL] at hE
              | err m3 t3 =>
                rw [hI] at hE
                simp only [insContL, Res.err.injEq] at hE
                rw [← hE.2, (ihl d).1 m3 t3 hI]
          · cases r with
            | nil =>
              rw [insert_eq_gt_nil d v l s h he hlt] at hE
              simp at hE
            | node ri rl rr rs rh =>
              rw [insert_eq_goright d v l ri rl rr rs rh s h he hlt] at hE
              cases hI : insert d (.node ri rl rr rs rh) with
              | ok t3 =>
                rw [hI] at hE
                simp [insContR] at hE
              | err m3 t3 =>
                rw [hI] at hE
                simp only [insContR, Res.err.injEq] at hE
                rw [← hE.2, (ihr d).1 m3 t3 hI]
      · intro t2 hO
        by_cases he : d = v
        · rw [insert_eq_found d v l r s h he] at hO
          simp at hO
        · by_cases hlt : d < v
          · cases l with
            | nil =>
              rw [insert_eq_lt_nil d v r s h he hlt] at hO
              simp only [Res.ok.injEq] at hO
              subst hO
              refine ⟨?_, ?_, recalculate_node_ne_nil _ _ _ _ _, ?_⟩
              · rw [count_recalculate]; simp [count_node, count_nil]; omega
              · rw [sizeP_recalculate]; rfl
              · intro hsf
                rw [subtreesFull, Bool.and_eq_true] at hsf
                rw [allFull_recalculate]
                simp [allFull, hsf.2]
            | node li ll lr ls lh =>
              rw [insert_eq_goleft d v li ll lr ls lh r s h he hlt] at hO
              cases hI : insert d (.node li ll lr ls lh) with
              | ok t3 =>
                rw [hI] at hO
                simp only [insContL, Res.ok.injEq] at hO
                subst hO
                obtain ⟨hc, hs, hne, hfull⟩ := (ihl d).2 t3 hI
                refine ⟨?_, ?_, recalculate_node_ne_nil _ _ _ _ _, ?_⟩
                · rw [count_recalculate]
                  simp only [count_node] at hc ⊢
                  omega
                · rw [sizeP_recalculate]; rfl
                · intro hsf
                  rw [subtreesFull, Bool.and_eq_true] at hsf
                  rw [allFull_recalculate]
                  simp [allFull, hsf.2, hfull (allFull_imp_subtreesFull _ hsf.1)]
              | err m3 t3 =>
                rw [hI] at hO
                simp [insContL] at hO
          · cases r with
            | nil =>
              rw [insert_eq_gt_nil d v l s h he hlt] at hO
              simp only [Res.ok.injEq] at hO
              subst hO
              refine ⟨?_, ?_, recalculate_node_ne_nil _ _ _ _ _, ?_⟩
              · rw [count_recalculate]; simp [count_node, count_nil]
              · rw [sizeP_recalculate]; rfl
              · intro hsf
                rw [subtreesFull, Bool.and_eq_true] at hsf
                rw [allFull_recalculate]
                simp [allFull, hsf.1]
            | node ri rl rr rs rh =>
              rw [insert_eq_goright d v l ri rl rr rs rh s h he hlt] at hO
              cases hI : insert d (.node ri rl rr rs rh) with
              | ok t3 =>
                rw [hI] at hO
                simp only [insContR, Res.ok.injEq] at hO
                subst hO
                obtain ⟨hc, hs, hne, hfull⟩ := (ihr d).2 t3 hI
                refine ⟨?_, ?_, recalculate_node_ne_nil _ _ _ _ _, ?_⟩
                · rw [count_recalculate]
                  simp only [count_node] at hc ⊢
                  omega
                · rw [sizeP_recalculate]; rfl
                · intro hsf
                  rw [subtreesFull, Bool.and_eq_true] at hsf
                  rw [allFull_recalculate]
                  simp [allFull, hsf.1, hfull (allFull_imp_subtreesFull _ hsf.2)]
              | err m3 t3 =>
                rw [hI] at hO
                simp [insContR] at hO

/-- A thrown `pop`/`popleft` (empty subtree) leaves the subtree unchanged. -/
theorem pop_popleft_err_state : ∀ t : Tree,
    (∀ m t2, pop t = ResV.err m t2 → t2 = t) ∧
    (∀ m t2, popleft t = ResV.err m t2 → t2 = t) := by
  intro t
  induction t with
  | nil =>
    constructor
    · intro m t2 hE
      simp [pop] at hE
      exact hE.2.symm
    · intro m t2 hE
      simp [popleft] at hE
      exact hE.2.symm
  | node i l r s h ihl ihr =>
    cases i with
    | none =>
      constructor
      · intro m t2 hE
        simp only [pop, ResV.err.injEq] at hE
        exact hE.2.symm
      · intro m t2 hE
        simp only [popleft, ResV.err.injEq] at hE
        exact hE.2.symm
    | some v =>
      constructor
      · intro m t2 hE
        cases r with
        | node ri rl rr rs rh =>
          rw [show pop (.node (some v) l (.node ri rl rr rs rh) s h)
                = popContR v l s h (pop (.node ri rl rr rs rh)) from rfl] at hE
          cases hI : pop (.node ri rl rr rs rh) with
          | ok v3 t3 =>
            rw [hI] at hE
            simp [popContR] at hE
          | err m3 t3 =>
            rw [hI] at hE
            simp only [popContR, ResV.err.injEq] at hE
            rw [← hE.2, ihr.1 m3 t3 hI]
        | nil =>
          cases l with
          | node li ll lr ls lh =>
            rw [show pop (.node (some v) (.node li ll lr ls lh) .nil s h)
                  = popContL v s h (popleft (.node li ll lr ls lh)) from rfl] at hE
            cases hI : popleft (.node li ll lr ls lh) with
            | ok v3 t3 =>
              rw [hI] at hE
              simp [popContL] at hE
            | err m3 t3 =>
              rw [hI] at hE
              simp only [popContL, ResV.err.injEq] at hE
              rw [← hE.2, ihl.2 m3 t3 hI]
          | nil => simp [pop] at hE
      · intro m t2 hE
        cases l with
        | node li ll lr ls lh =>
          rw [show popleft (.node (some v) (.node li ll lr ls lh) r s h)
                = popleftContL v r s h (popleft (.node li ll lr ls lh)) from rfl] at hE
          cases hI : popleft (.node li ll lr ls lh) with
          | ok v3 t3 =>
            rw [hI] at hE
            simp [popleftContL] at hE
          | err m3 t3 =>
            rw [hI] at hE
            simp only [popleftContL, ResV.err.injEq] at hE
            rw [← hE.2, ihl.2 m3 t3 hI]
        | nil =>
          cases r with
          | node ri rl rr rs rh =>
            rw [show popleft (.node (some v) .nil (.node ri rl rr rs rh) s h)
                  = popleftContR v s h (pop (.node ri rl rr rs rh)) from rfl] at hE
            cases hI : pop (.node ri rl rr rs rh) with
            | ok v3 t3 =>
              rw [hI] at hE
              simp [popleftContR] at hE
            | err m3 t3 =>
              rw [hI] at hE
              simp only [popleftContR, ResV.err.injEq] at hE
              rw [← hE.2, ihr.1 m3 t3 hI]
          | nil => simp [popleft] at hE

/-! Unfolding lemmas for `remove`, one per source branch. -/

theorem remove_eq_empty (d : Int) (l r : Tree) (s h : Int) :
    remove d (.node none l r s h) = .err "Can't remove from empty tree" (.node none l r s h) := by
  cases l <;> cases r <;> simp [remove]

theorem remove_eq_match_nodeL (d v : Int) (li : Option Int) (ll lr : Tree) (ls lh : Int)
    (r : Tree) (s h : Int) (he : v = d) :
    remove d (.node (some v) (.node li ll lr ls lh) r s h) =
      remContPopL r s h v (pop (.node li ll lr ls lh)) := by
  cases r <;> simp [remove, he]

theorem remove_eq_match_nilL_nodeR (d v : Int) (ri : Option Int) (rl rr : Tree) (rs rh : Int)
    (s h : Int) (he : v = d) :
    remove d (.node (some v) .nil (.node ri rl rr rs rh) s h) =
      remContPopR s h v (popleft (.node ri rl rr rs rh)) := by
  simp [remove, he]

theorem remove_eq_match_leaf (d v : Int) (s h : Int) (he : v = d) :
    remove d (.node (some v) .nil .nil s h) = .ok (.node none .nil .nil 0 0) := by
  simp [remove, he]

theorem remove_eq_goleft (d v : Int) (li : Option Int) (ll lr : Tree) (ls lh : Int)
    (r : Tree) (s h : Int) (hne : ¬v = d) (hlt : d < v) :
    remove d (.node (some v) (.node li ll lr ls lh) r s h) =
      remContL v r s h (remove d (.node li ll lr ls lh)) := by
  cases r <;> simp [remove, hne, hlt]

theorem remove_eq_goright (d v : Int) (l : Tree) (ri : Option Int) (rl rr : Tree) (rs rh : Int)
    (s h : Int) (hne : ¬v = d) (hni : ¬(l ≠ Tree.nil ∧ d < v)) :
    remove d (.node (some v) l (.node ri rl rr rs rh) s h) =
      remContR v l s h (remove d (.node ri rl rr rs rh)) := by
  cases l <;> simp [remove, hne, hni] <;> simp at hni <;> simp [hni]

theorem remove_eq_notfound (d v : Int) (l : Tree) (s h : Int)
    (hne : ¬v = d) (hni : ¬(l ≠ Tree.nil ∧ d < v)) :
    remove d (.node (some v) l .nil s h) =
      .err "Information not found" (.node (some v) l .nil s h) := by
  cases l <;> simp [remove, hne, hni] <;> simp at hni <;> simp [hni]

/-- `allFull`-or-emptied-root implies the `fullOrEmptyLeaf` shape. -/
theorem shape_fullOrEmptyLeaf (t : Tree)
    (hs : allFull t = true ∨ t = Tree.node none Tree.nil Tree.nil 0 0) : fullOrEmptyLeaf t := by
  rcases hs with hf | rfl
  · exact Or.inl hf
  · exact Or.inr ⟨0, 0, rfl⟩

/-- Combined effects of `remove`: a thrown `remove` leaves the tree exactly as
it was, and a successful one on an all-full tree removes exactly one element,
decrements the root's cached `_size` by one (or zeroes it out when the whole
tree was the matched childless node), and leaves an all-full tree or the
emptied root. -/
theorem remove_cases : ∀ (t : Tree) (d : Int),
    (∀ m t2, remove d t = Res.err m t2 → t2 = t) ∧
    (∀ t2, remove d t = Res.ok t2 → allFull t = true →
      count t = count t2 + 1 ∧
      (sizeP t2 = sizeP t - 1 ∨ (count t = 1 ∧ t2 = Tree.node none Tree.nil Tree.nil 0 0)) ∧
      (allFull t2 = true ∨ t2 = Tree.node none Tree.nil Tree.nil 0 0) ∧ t2 ≠ Tree.nil) := by
  intro t
  induction t with
  | nil =>
    intro d
    constructor
    · intro m t2 hE
      simp [remove] at hE
      exact hE.2.symm
    · intro t2 hO
      simp [remove] at hO
  | node i l r s h ihl ihr =>
    intro d
    cases i with
    | none =>
      constructor
      · intro m t2 hE
        rw [remove_eq_empty] at hE
        simp only [Res.err.injEq] at hE
        exact hE.2.symm
      · intro t2 hO
        rw [remove_eq_empty] at hO
        simp at hO
    | some v =>
      constructor
      · -- thrown: state unchanged
        intro m t2 hE
        by_cases he : v = d
        · cases l with
          | node li ll lr ls lh =>
            rw [remove_eq_match_nodeL d v li ll lr ls lh r s h he] at hE
            cases hP : pop (.node li ll lr ls lh) with
            | ok pv l3 =>
              rw [hP] at hE
              simp [remContPopL] at hE
            | err m3 l3 =>
              rw [hP] at hE
              simp only [remContPopL, Res.err.injEq] at hE
              rw [← hE.2, (pop_popleft_err_state _).1 m3 l3 hP]
          | nil =>
            cases r with
            | node ri rl rr rs rh =>
              rw [remove_eq_match_nilL_nodeR d v ri rl rr rs rh s h he] at hE
              cases hP : popleft (.node ri rl rr rs rh) with
              | ok pv r3 =>
                rw [hP] at hE
                simp [remContPopR] at hE
              | err m3 r3 =>
                rw [hP] at hE
                simp only [remContPopR, Res.err.injEq] at hE
                rw [← hE.2, (pop_popleft_err_state _).2 m3 r3 hP]
            | nil =>
              rw [remove_eq_match_leaf d v s h he] at hE
              simp at hE
        · by_cases hcond : l ≠ Tree.nil ∧ d < v
          · cases l with
            | nil => exact absurd rfl hcond.1
            | node li ll lr ls lh =>
              rw [remove_eq_goleft d v li ll lr ls lh r s h he hcond.2] at hE
              cases hR : remove d (.node li ll lr ls lh) with
              | ok l3 =>
                rw [hR] at hE
                simp [remContL] at hE
              | err m3 l3 =>
                rw [hR] at hE
                simp only [remContL, Res.err.injEq] at hE
                rw [← hE.2, (ihl d).1 m3 l3 hR]
          · cases r with
            | node ri rl rr rs rh =>
              rw [remove_eq_goright d v l ri rl rr rs rh s h he hcond] at hE
              cases hR : remove d (.node ri rl rr rs rh) with
              | ok r3 =>
                rw [hR] at hE
                simp [remContR] at hE
              | err m3 r3 =>
                rw [hR] at hE
                simp only [remContR, Res.err.injEq] at hE
                rw [← hE.2, (ihr d).1 m3 r3 hR]
            | nil =>
              rw [remove_eq_notfound d v l s h he hcond] at hE
              simp only [Res.err.injEq] at hE
              exact hE.2.symm
      · -- success: one element removed
        intro t2 hO hf
        rw [allFull, Bool.and_eq_true, Bool.and_eq_true] at hf
        obtain ⟨⟨_, hfl⟩, hfr⟩ := hf
        by_cases he : v = d
        · cases l with
          | node li ll lr ls lh =>
            rw [remove_eq_match_nodeL d v li ll lr ls lh r s h he] at hO
            obtain ⟨pv, l2, hP, hsz, hcnt, hsh, hne⟩ :=
              ((pop_popleft_spec _ hfl (by simp))).1
            rw [hP] at hO
            simp only [remContPopL, Res.ok.injEq] at hO
            subst hO
            refine ⟨?_, Or.inl ?_, Or.inl ?_, recalculate_node_ne_nil _ _ _ _ _⟩
            · rw [count_recalculate]
              simp [count_node, count_deleteIfEmpty _ hsh] at hcnt ⊢
              omega
            · rw [sizeP_recalculate]; rfl
            · rw [allFull_recalculate]
              simp [allFull, hfr, allFull_deleteIfEmpty _ hsh]
          | nil =>
            cases r with
            | node ri rl rr rs rh =>
              rw [remove_eq_match_nilL_nodeR d v ri rl rr rs rh s h he] at hO
              obtain ⟨pv, r2, hP, hsz, hcnt, hsh, hne⟩ :=
                ((pop_popleft_spec _ hfr (by simp))).2
              rw [hP] at hO
              simp only [remContPopR, Res.ok.injEq] at hO
              subst hO
              refine ⟨?_, Or.inl ?_, Or.inl ?_, recalculate_node_ne_nil _ _ _ _ _⟩
              · rw [count_recalculate]
                simp [count_node, count_deleteIfEmpty _ hsh] at hcnt ⊢
                omega
              · rw [sizeP_recalculate]; rfl
              · rw [allFull_recalculate]
                simp [allFull, allFull_deleteIfEmpty _ hsh]
            | nil =>
              rw [remove_eq_match_leaf d v s h he] at hO
              simp only [Res.ok.injEq] at hO
              subst hO
              refine ⟨by simp [count_node, count_nil], Or.inr ⟨by simp [count_node, count_nil], rfl⟩,
                Or.inr rfl, by simp⟩
        · by_cases hcond : l ≠ Tree.nil ∧ d < v
          · cases l with
            | nil => exact absurd rfl hcond.1
            | node li ll lr ls lh =>
              rw [remove_eq_goleft d v li ll lr ls lh r s h he hcond.2] at hO
              cases hR : remove d (.node li ll lr ls lh) with
              | ok l2 =>
                rw [hR] at hO
                simp only [remContL, Res.ok.injEq] at hO
                subst hO
                obtain ⟨hcnt, hsz, hsh, hne⟩ := (ihl d).2 l2 hR hfl
                have hfol : fullOrEmptyLeaf l2 := shape_fullOrEmptyLeaf _ hsh
                refine ⟨?_, Or.inl ?_, Or.inl ?_, recalculate_node_ne_nil _ _ _ _ _⟩
                · rw [count_recalculate]
                  simp [count_node, count_deleteIfEmpty _ hfol] at hcnt ⊢
                  omega
                · rw [sizeP_recalculate]; rfl
                · rw [allFull_recalculate]
                  simp [allFull, hfr, allFull_deleteIfEmpty _ hfol]
              | err m3 l2 =>
                rw [hR] at hO
                simp [remContL] at hO
          · cases r with
            | node ri rl rr rs rh =>
              rw [remove_eq_goright d v l ri rl rr rs rh s h he hcond] at hO
              cases hR : remove d (.node ri rl rr rs rh) with
              | ok r2 =>
                rw [hR] at hO
                simp only [remContR, Res.ok.injEq] at hO
                subst hO
                obtain ⟨hcnt, hsz, hsh, hne⟩ := (ihr d).2 r2 hR hfr
                have hfol : fullOrEmptyLeaf r2 := shape_fullOrEmptyLeaf _ hsh
                refine ⟨?_, Or.inl ?_, Or.inl ?_, recalculate_node_ne_nil _ _ _ _ _⟩
                · rw [count_recalculate]
                  simp [count_node, count_deleteIfEmpty _ hfol] at hcnt ⊢
                  omega
                · rw [sizeP_recalculate]; rfl
                · rw [allFull_recalculate]
                  simp [allFull, hfl, allFull_deleteIfEmpty _ hfol]
              | err m3 r2 =>
                rw [hR] at hO
                simp [remContR] at hO
            | nil =>
              rw [remove_eq_notfound d v l s h he hcond] at hO
              simp at hO

/-! ## Ordering lemmas for the C7 analysis of `update` -/

theorem allVals_iff_mem (p : Int → Bool) : ∀ t : Tree,
    (allVals p t = true ↔ ∀ x ∈ inorderList t, p x = true) := by
  intro t
  induction t with
  | nil => simp [allVals, inorderList]
  | node i l r s h ihl ihr =>
    cases i with
    | none =>
      simp only [allVals, inorderList, Bool.and_eq_true, ihl, ihr]
      constructor
      · rintro ⟨⟨_, h1⟩, h2⟩ x hx
        simp [List.mem_append, Option.toList] at hx
        rcases hx with hx | hx
        · exact h1 x hx
        · exact h2 x hx
      · intro hall
        refine ⟨⟨trivial, fun x hx => hall x ?_⟩, fun x hx => hall x ?_⟩
        · simp [List.mem_append, Option.toList]
          exact Or.inl hx
        · simp [List.mem_append, Option.toList]
          exact Or.inr hx
    | some v =>
      simp only [allVals, inorderList, Bool.and_eq_true, ihl, ihr]
      constructor
      · rintro ⟨⟨hv, h1⟩, h2⟩ x hx
        simp [List.mem_append, Option.toList] at hx
        rcases hx with hx | hx | hx
        · exact h1 x hx
        · exact hx ▸ hv
        · exact h2 x hx
      · intro hall
        refine ⟨⟨hall v ?_, fun x hx => hall x ?_⟩, fun x hx => hall x ?_⟩
        · simp [List.mem_append, Option.toList]
        · simp [List.mem_append, Option.toList]
          exact Or.inl hx
        · simp [List.mem_append, Option.toList]
          exact Or.inr (Or.inr hx)

/-- Trees with the same in-order values satisfy the same `allVals` bounds. -/
theorem allVals_congr_inorder (p : Int → Bool) (t1 t2 : Tree)
    (h : inorderList t1 = inorderList t2) : allVals p t1 = allVals p t2 := by
  rw [Bool.eq_iff_iff, allVals_iff_mem, allVals_iff_mem, h]

theorem allVals_mono (p q : Int → Bool) (t : Tree) (hpq : ∀ x, p x = true → q x = true)
    (hp : allVals p t = true) : allVals q t = true := by
  rw [allVals_iff_mem] at hp ⊢
  exact fun x hx => hpq x (hp x hx)

theorem bst_rotateLeft (t : Tree) (hf : allFull t = true) (hb : bst t = true) :
    bst (rotateLeft t) = true := by
  cases t with
  | nil => exact hb
  | node i l r s h =>
    cases r with
    | nil => exact hb
    | node ri rl rr rs rh =>
      rw [allFull, Bool.and_eq_true, Bool.and_eq_true, allFull,
        Bool.and_eq_true, Bool.and_eq_true] at hf
      obtain ⟨⟨hi, hfl⟩, ⟨hri, hfrl⟩, hfrr⟩ := hf
      obtain ⟨x, rfl⟩ := Option.isSome_iff_exists.mp hi
      obtain ⟨y, rfl⟩ := Option.isSome_iff_exists.mp hri
      simp only [bst, allVals, Bool.and_eq_true, decide_eq_true_eq] at hb
      have hxy : x < y := by tauto
      have hlX : allVals (fun z => decide (z < x)) l = true := by tauto
      have hlY : allVals (fun z => decide (z < y)) l = true :=
        allVals_mono _ _ l (fun z hz => by simp at hz ⊢; omega) hlX
      simp only [rotateLeft, bst, allVals, Bool.and_eq_true, decide_eq_true_eq]
      tauto

theorem bst_rotateRight (t : Tree) (hf : allFull t = true) (hb : bst t = true) :
    bst (rotateRight t) = true := by
  cases t with
  | nil => exact hb
  | node i l r s h =>
    cases l with
    | nil => exact hb
    | node li ll lr ls lh =>
      rw [allFull, Bool.and_eq_true, Bool.and_eq_true, allFull,
        Bool.and_eq_true, Bool.and_eq_true] at hf
      obtain ⟨⟨hi, ⟨hli, hfll⟩, hflr⟩, hfr⟩ := hf
      obtain ⟨x, rfl⟩ := Option.isSome_iff_exists.mp hi
      obtain ⟨y, rfl⟩ := Option.isSome_iff_exists.mp hli
      simp only [bst, allVals, Bool.and_eq_true, decide_eq_true_eq] at hb
      have hyx : y < x := by tauto
      have hrX : allVals (fun z => decide (x < z)) r = true := by tauto
      have hrY : allVals (fun z => decide (y < z)) r = true :=
        allVals_mono _ _ r (fun z hz => by simp at hz ⊢; omega) hrX
      simp only [rotateRight, bst, allVals, Bool.and_eq_true, decide_eq_true_eq]
      tauto

theorem bst_node_congr (i : Option Int) (l1 r1 l2 r2 : Tree) (s1 h1 s2 h2 : Int)
    (hl : bst l2 = true) (hr : bst r2 = true)
    (hil : inorderList l2 = inorderList l1) (hir : inorderList r2 = inorderList r1)
    (hb : bst (.node i l1 r1 s1 h1) = true) : bst (.node i l2 r2 s2 h2) = true := by
  cases i with
  | none => simp [bst, hl, hr]
  | some v =>
    simp only [bst, Bool.and_eq_true] at hb ⊢
    refine ⟨⟨hl, hr⟩, ?_, ?_⟩
    · rw [allVals_congr_inorder _ _ _ hil]
      exact hb.2.1
    · rw [allVals_congr_inorder _ _ _ hir]
      exact hb.2.2

theorem bst_rebalance (i : Option Int) (l r : Tree) (s h : Int)
    (hf : allFull (.node i l r s h) = true) (hb : bst (.node i l r s h) = true) :
    bst (rebalance (.node i l r s h)) = true := by
  rw [allFull, Bool.and_eq_true, Bool.and_eq_true] at hf
  obtain ⟨⟨hi, hfl⟩, hfr⟩ := hf
  have hfn : allFull (.node i l r s h) = true := by
    simp [allFull, hi, hfl, hfr]
  rw [rebalance]
  split
  · set l2 := if balanceFactor l > 0 then rotateLeft l else l with hl2
    have hbl2 : bst l2 = true := by
      rw [hl2]
      split
      · exact bst_rotateLeft l hfl (by
          simp only [bst, Bool.and_eq_true] at hb
          exact hb.1.1)
      · simp only [bst, Bool.and_eq_true] at hb
        exact hb.1.1
    have hil2 : inorderList l2 = inorderList l := by
      rw [hl2]
      split
      · exact inorderList_rotateLeft l
      · rfl
    have hfl2 : allFull l2 = true := by
      rw [hl2]
      split
      · rw [allFull_rotateLeft]; exact hfl
      · exact hfl
    apply bst_rotateRight
    · simp [allFull, hi, hfl2, hfr]
    · exact bst_node_congr i l r l2 r s h s h hbl2
        (by simp only [bst, Bool.and_eq_true] at hb; exact hb.1.2) hil2 rfl hb
  · split
    · set r2 := if balanceFactor r < 0 then rotateRight r else r with hr2
      have hbr2 : bst r2 = true := by
        rw [hr2]
        split
        · exact bst_rotateRight r hfr (by
            simp only [bst, Bool.and_eq_true] at hb
            exact hb.1.2)
        · simp only [bst, Bool.and_eq_true] at hb
          exact hb.1.2
      have hir2 : inorderList r2 = inorderList r := by
        rw [hr2]
        split
        · exact inorderList_rotateRight r
        · rfl
      have hfr2 : allFull r2 = true := by
        rw [hr2]
        split
        · rw [allFull_rotateRight]; exact hfr
        · exact hfr
      apply bst_rotateLeft
      · simp [allFull, hi, hfl, hfr2]
      · exact bst_node_congr i l r l r2 s h s h
          (by simp only [bst, Bool.and_eq_true] at hb; exact hb.1.1) hbr2 rfl hir2 hb
    · exact hb

theorem bst_recalculate (i : Option Int) (l r : Tree) (s h : Int)
    (hf : allFull (.node i l r s h) = true) (hb : bst (.node i l r s h) = true) :
    bst (recalculate (.node i l r s h)) = true := by
  rw [recalculate]
  apply bst_rebalance
  · rw [allFull] at hf ⊢
    exact hf
  · cases i with
    | none => simpa [bst] using hb
    | some v => simpa [bst] using hb

/-- When the cached height is consistent and the cached balance factor is in
`[-1, 1]` at the root, `recalculate` is the identity. -/
theorem recalculate_id (i : Option Int) (l r : Tree) (s h : Int)
    (hok : cacheOK (.node i l r s h) = true) :
    recalculate (.node i l r s h) = .node i l r s h := by
  simp only [cacheOK, Bool.and_eq_true, beq_iff_eq, decide_eq_true_eq] at hok
  obtain ⟨⟨⟨hh, hb1, hb2⟩, _⟩, _⟩ := hok
  rw [recalculate, ← hh, rebalance]
  rw [if_neg (by omega), if_neg (by omega)]

/-! Unfolding lemmas for `find` and `update` on a value-bearing node. -/

theorem find_eq_found (d v : Int) (l r : Tree) (s h : Int) (he : v = d) :
    find d (.node (some v) l r s h) = some v := by
  cases l <;> cases r <;> simp [find, he]

theorem find_eq_left (d v : Int) (li : Option Int) (ll lr : Tree) (ls lh : Int)
    (r : Tree) (s h : Int) (hne : ¬v = d) (hlt : d < v) :
    find d (.node (some v) (.node li ll lr ls lh) r s h) = find d (.node li ll lr ls lh) := by
  cases r <;> simp [find, hne, hlt]

theorem find_eq_right (d v : Int) (l : Tree) (ri : Option Int) (rl rr : Tree) (rs rh : Int)
    (s h : Int) (hne : ¬v = d) (hge : ¬d < v) :
    find d (.node (some v) l (.node ri rl rr rs rh) s h) = find d (.node ri rl rr rs rh) := by
  cases l <;> simp [find, hne, hge]

theorem update_eq_found (d v : Int) (l r : Tree) (s h : Int) (he : d = v) :
    update d (.node (some v) l r s h) = recalculate (.node (some d) l r s h) := by
  cases l <;> cases r <;> simp [update, he]

theorem update_eq_goleft (d v : Int) (li : Option Int) (ll lr : Tree) (ls lh : Int)
    (r : Tree) (s h : Int) (hne : ¬d = v) (hlt : d < v) :
    update d (.node (some v) (.node li ll lr ls lh) r s h) =
      recalculate (.node (some v) (update d (.node li ll lr ls lh)) r s h) := by
  cases r <;> simp [update, hne, hlt]

theorem update_eq_goright (d v : Int) (l : Tree) (ri : Option Int) (rl rr : Tree) (rs rh : Int)
    (s h : Int) (hne : ¬d = v) (hge : ¬d < v) :
    update d (.node (some v) l (.node ri rl rr rs rh) s h) =
      recalculate (.node (some v) l (update d (.node ri rl rr rs rh)) s h) := by
  cases l <;> simp [update, hne, hge]

/-- Membership dispatch in a BST node: a value smaller than the root that is
present must sit in the left subtree. -/
theorem mem_left_of_lt (w v : Int) (l r : Tree) (s h : Int)
    (hrW : allVals (fun z => decide (w < z)) r = true)
    (hm : v ∈ inorderList (.node (some w) l r s h)) (hlt : v < w) :
    v ∈ inorderList l := by
  simp only [inorderList, Option.toList, List.mem_append, List.mem_singleton] at hm
  rcases hm with (hm | hm) | hm
  · exact hm
  · omega
  · rw [allVals_iff_mem] at hrW
    have := hrW v hm
    simp at this
    omega

/-- Mirror: a larger present value must sit in the right subtree. -/
theorem mem_right_of_gt (w v : Int) (l r : Tree) (s h : Int)
    (hlW : allVals (fun z => decide (z < w)) l = true)
    (hm : v ∈ inorderList (.node (some w) l r s h)) (hgt : w < v) :
    v ∈ inorderList r := by
  simp only [inorderList, Option.toList, List.mem_append, List.mem_singleton] at hm
  rcases hm with (hm | hm) | hm
  · rw [allVals_iff_mem] at hlW
    have := hlW v hm
    simp at this
    omega
  · omega
  · exact hm

/-- On an all-full BST, `find` locates every present value and returns it. -/
theorem find_present : ∀ (t : Tree) (v : Int), allFull t = true → bst t = true →
    v ∈ inorderList t → find v t = some v := by
  intro t
  induction t with
  | nil =>
    intro v _ _ hm
    simp [inorderList] at hm
  | node i l r s h ihl ihr =>
    intro v hf hb hm
    rw [allFull, Bool.and_eq_true, Bool.and_eq_true] at hf
    obtain ⟨⟨hi, hfl⟩, hfr⟩ := hf
    obtain ⟨w, rfl⟩ := Option.isSome_iff_exists.mp hi
    simp only [bst, Bool.and_eq_true] at hb
    obtain ⟨⟨hbl, hbr⟩, hlW, hrW⟩ := hb
    by_cases hvw : w = v
    · rw [find_eq_found v w l r s h hvw, hvw]
    · by_cases hlt : v < w
      · have hml : v ∈ inorderList l := mem_left_of_lt w v l r s h hrW hm hlt
        cases l with
        | nil => simp [inorderList] at hml
        | node li ll lr ls lh =>
          rw [find_eq_left v w li ll lr ls lh r s h hvw hlt]
          exact ihl v hfl hbl hml
      · have hgt : w < v := by omega
        have hmr : v ∈ inorderList r := mem_right_of_gt w v l r s h hlW hm hgt
        cases r with
        | nil => simp [inorderList] at hmr
        | node ri rl rr rs rh =>
          rw [find_eq_right v w l ri rl rr rs rh s h hvw hlt]
          exact ihr v hfr hbr hmr

theorem cacheOK_children (i : Option Int) (l r : Tree) (s h : Int)
    (hok : cacheOK (.node i l r s h) = true) : cacheOK l = true ∧ cacheOK r = true := by
  simp only [cacheOK, Bool.and_eq_true] at hok
  exact ⟨hok.1.2, hok.2⟩

/-- Full effect of `update v` on an all-full BST containing `v`: the value
sequence, root `_size`, fullness and BST order are all preserved, and if every
cached height is consistent and balanced the tree is left entirely unchanged. -/
theorem update_spec : ∀ (t : Tree) (v : Int), allFull t = true → bst t = true →
    v ∈ inorderList t →
    inorderList (update v t) = inorderList t ∧ sizeP (update v t) = sizeP t ∧
    allFull (update v t) = true ∧ bst (update v t) = true ∧
    (cacheOK t = true → update v t = t) := by
  intro t
  induction t with
  | nil =>
    intro v _ _ hm
    simp [inorderList] at hm
  | node i l r s h ihl ihr =>
    intro v hf hb hm
    rw [allFull, Bool.and_eq_true, Bool.and_eq_true] at hf
    obtain ⟨⟨hi, hfl⟩, hfr⟩ := hf
    obtain ⟨w, rfl⟩ := Option.isSome_iff_exists.mp hi
    have hfn : allFull (.node (some w) l r s h) = true := by
      simp [allFull, hfl, hfr]
    simp only [bst, Bool.and_eq_true] at hb
    obtain ⟨⟨hbl, hbr⟩, hlW, hrW⟩ := hb
    have hbn : bst (.node (some w) l r s h) = true := by
      simp [bst, Bool.and_eq_true, hbl, hbr, hlW, hrW]
    by_cases hvw : v = w
    · subst hvw
      rw [update_eq_found v v l r s h rfl]
      refine ⟨inorderList_recalculate _ _ _ _ _, sizeP_recalculate _ _ _ _ _, ?_, ?_, ?_⟩
      · rw [allFull_recalculate]
        exact hfn
      · exact bst_recalculate _ _ _ _ _ hfn hbn
      · intro hok
        exact recalculate_id _ _ _ _ _ hok
    · by_cases hlt : v < w
      · have hml : v ∈ inorderList l := mem_left_of_lt w v l r s h hrW hm hlt
        cases l with
        | nil => simp [inorderList] at hml
        | node li ll lr ls lh =>
          rw [update_eq_goleft v w li ll lr ls lh r s h hvw hlt]
          obtain ⟨hio, hsz, hfull, hbst, hid⟩ := ihl v hfl hbl hml
          have hfn2 : allFull (.node (some w) (update v (.node li ll lr ls lh)) r s h) = true := by
            simp [allFull, hfull, hfr]
          have hbn2 : bst (.node (some w) (update v (.node li ll lr ls lh)) r s h) = true :=
            bst_node_congr (some w) (.node li ll lr ls lh) r
              (update v (.node li ll lr ls lh)) r s h s h hbst hbr hio rfl hbn
          refine ⟨?_, sizeP_recalculate _ _ _ _ _, ?_, ?_, ?_⟩
          · rw [inorderList_recalculate]
            simp [inorderList, hio]
          · rw [allFull_recalculate]
            exact hfn2
          · exact bst_recalculate _ _ _ _ _ hfn2 hbn2
          · intro hok
            rw [hid (cacheOK_children _ _ _ _ _ hok).1]
            exact recalculate_id _ _ _ _ _ hok
      · have hgt : w < v := by omega
        have hmr : v ∈ inorderList r := mem_right_of_gt w v l r s h hlW hm hgt
        cases r with
        | nil => simp [inorderList] at hmr
        | node ri rl rr rs rh =>
          rw [update_eq_goright v w l ri rl rr rs rh s h hvw hlt]
          obtain ⟨hio, hsz, hfull, hbst, hid⟩ := ihr v hfr hbr hmr
          have hfn2 : allFull (.node (some w) l (update v (.node ri rl rr rs rh)) s h) = true := by
            simp [allFull, hfull, hfl]
          have hbn2 : bst (.node (some w) l (update v (.node ri rl rr rs rh)) s h) = true :=
            bst_node_congr (some w) l (.node ri rl rr rs rh) l
              (update v (.node ri rl rr rs rh)) s h s h hbl hbst rfl hio hbn
          refine ⟨?_, sizeP_recalculate _ _ _ _ _, ?_, ?_, ?_⟩
          · rw [inorderList_recalculate]
            simp [inorderList, hio]
          · rw [allFull_recalculate]
            exact hfn2
          · exact bst_recalculate _ _ _ _ _ hfn2 hbn2
          · intro hok
            rw [hid (cacheOK_children _ _ _ _ _ hok).2]
            exact recalculate_id _ _ _ _ _ hok

/-! ## The reachability invariant for insert/remove/clear sequences -/

/-- Invariant tying the root's cached `_size` to the real element count and to
the running insert/remove counters. -/
def rootInv (t : Tree) (ni nr : Nat) : Prop :=
  t ≠ Tree.nil ∧ (allFull t = true ∨ t = initTree) ∧
    sizeP t = (count t : Int) ∧ count t + nr = ni

theorem rootInv_init : rootInv initTree 0 0 :=
  ⟨by simp [initTree], Or.inr rfl, rfl, rfl⟩

theorem stepOp_inv : ∀ (st : Tree × Nat × Nat) (op : Op),
    rootInv st.1 st.2.1 st.2.2 →
    rootInv (stepOp st op).1 (stepOp st op).2.1 (stepOp st op).2.2 := by
  rintro ⟨t, ni, nr⟩ op ⟨hne, hful, hsz, hcnt⟩
  dsimp only at hne hful hsz hcnt
  cases op with
  | ins v =>
    cases hI : insert v t with
    | ok t2 =>
      have hstep : stepOp (t, ni, nr) (Op.ins v) = (t2, ni + 1, nr) := by
        simp [stepOp, hI]
      rw [hstep]
      obtain ⟨hc, hs, hne2, hfull⟩ := (insert_cases t v).2 t2 hI
      have hsf : subtreesFull t = true := by
        rcases hful with hf | rfl
        · exact allFull_imp_subtreesFull t hf
        · rfl
      refine ⟨hne2, Or.inl (hfull hsf), ?_, ?_⟩
      · show sizeP t2 = (count t2 : Int)
        rw [hs, hc, hsz]
        push_cast
        ring
      · show count t2 + nr = ni + 1
        rw [hc]
        omega
    | err m t2 =>
      have ht : t2 = t := (insert_cases t v).1 m t2 hI
      have hstep : stepOp (t, ni, nr) (Op.ins v) = (t, ni, nr) := by
        simp [stepOp, hI, ht]
      rw [hstep]
      exact ⟨hne, hful, hsz, hcnt⟩
  | rem v =>
    cases hI : remove v t with
    | ok t2 =>
      have hstep : stepOp (t, ni, nr) (Op.rem v) = (t2, ni, nr + 1) := by
        simp [stepOp, hI]
      rw [hstep]
      have hf : allFull t = true := by
        rcases hful with hf | rfl
        · exact hf
        · rw [show initTree = Tree.node none Tree.nil Tree.nil 0 0 from rfl,
              remove_eq_empty] at hI
          cases hI
      obtain ⟨hc, hs, hsh, hne2⟩ := (remove_cases t v).2 t2 hI hf
      refine ⟨hne2, ?_, ?_, ?_⟩
      · rcases hsh with h2 | h2
        · exact Or.inl h2
        · exact Or.inr h2
      · show sizeP t2 = (count t2 : Int)
        rcases hs with h2 | ⟨h1, h2⟩
        · rw [h2, hsz]
          have hci : (count t : Int) = (count t2 : Int) + 1 := by exact_mod_cast hc
          omega
        · rw [h2]
          decide
      · show count t2 + (nr + 1) = ni
        omega
    | err m t2 =>
      have ht : t2 = t := (remove_cases t v).1 m t2 hI
      have hstep : stepOp (t, ni, nr) (Op.rem v) = (t, ni, nr) := by
        simp [stepOp, hI, ht]
      rw [hstep]
      exact ⟨hne, hful, hsz, hcnt⟩
  | clearOp =>
    exact rootInv_init

theorem runOps_inv (ops : List Op) :
    rootInv (runOps ops).1 (runOps ops).2.1 (runOps ops).2.2 := by
  suffices hgen : ∀ (st : Tree × Nat × Nat), rootInv st.1 st.2.1 st.2.2 →
      rootInv (ops.foldl stepOp st).1 (ops.foldl stepOp st).2.1 (ops.foldl stepOp st).2.2 by
    exact hgen (initTree, 0, 0) rootInv_init
  induction ops with
  | nil => intro st hst; simpa using hst
  | cons op rest ih =>
    intro st hst
    simp only [List.foldl_cons]
    exact ih (stepOp st op) (stepOp_inv st op hst)

/-! ## Bridging the in-order iterator drain and the recursive in-order list -/

/-- The nodes a drain starting from a given stack will visit: each entry,
followed by the in-order nodes of its right subtree. -/
def unroll : InorderIter → List Tree
  | [] => []
  | t :: rest => t :: (inorderNodes (rightOf t) ++ unroll rest)

theorem unroll_pushLeftSpine : ∀ (t : Tree) (st : InorderIter),
    unroll (pushLeftSpine t st) = inorderNodes t ++ unroll st := by
  intro t
  induction t with
  | nil => intro st; rfl
  | node i l r s h ihl ihr =>
    intro st
    rw [pushLeftSpine, ihl]
    simp [unroll, inorderNodes, rightOf]

theorem stackMeasure_pushLeftSpine : ∀ (t : Tree) (st : InorderIter),
    stackMeasure (pushLeftSpine t st) ≤ 2 * nodes t + stackMeasure st := by
  intro t
  induction t with
  | nil => intro st; simp [pushLeftSpine]
  | node i l r s h ihl ihr =>
    intro st
    rw [pushLeftSpine]
    calc stackMeasure (pushLeftSpine l (Tree.node i l r s h :: st))
        ≤ 2 * nodes l + stackMeasure (Tree.node i l r s h :: st) := ihl _
      _ ≤ 2 * nodes (Tree.node i l r s h) + stackMeasure st := by
          simp [stackMeasure, rightOf, nodes]; omega

/-- Stacks built by the iterator API contain no null pointers. -/
def allNotNil (st : InorderIter) : Prop := ∀ u ∈ st, u ≠ Tree.nil

theorem allNotNil_pushLeftSpine : ∀ (t : Tree) (st : InorderIter),
    allNotNil st → allNotNil (pushLeftSpine t st) := by
  intro t
  induction t with
  | nil => intro st hst; exact hst
  | node i l r s h ihl ihr =>
    intro st hst
    rw [pushLeftSpine]
    refine ihl _ ?_
    intro u hu
    rcases List.mem_cons.mp hu with rfl | hu2
    · simp
    · exact hst u hu2

/-- With fuel at least the stack measure, the drain succeeds and visits
exactly the unrolled node sequence. -/
theorem visitOrderF_adequate : ∀ (fuel : Nat) (st : InorderIter),
    stackMeasure st ≤ fuel → allNotNil st → visitOrderF fuel st = some (unroll st) := by
  intro fuel
  induction fuel with
  | zero =>
    intro st hm _
    cases st with
    | nil => rfl
    | cons t rest => simp [stackMeasure] at hm
  | succ f ih =>
    intro st hm hn
    cases st with
    | nil => rfl
    | cons t rest =>
      cases t with
      | nil => exact absurd rfl (hn Tree.nil (by simp))
      | node i l r s h =>
        have hm2 : stackMeasure (pushLeftSpine r rest) ≤ f := by
          have := stackMeasure_pushLeftSpine r rest
          simp [stackMeasure, rightOf] at hm
          omega
        have hn2 : allNotNil (pushLeftSpine r rest) := by
          apply allNotNil_pushLeftSpine
          intro u hu
          exact hn u (List.mem_cons_of_mem _ hu)
        have hv : visitOrderF (f + 1) (Tree.node i l r s h :: rest)
            = (visitOrderF f (pushLeftSpine r rest)).map (Tree.node i l r s h :: ·) := rfl
        rw [hv, ih _ hm2 hn2]
        simp [unroll, rightOf, unroll_pushLeftSpine]

theorem inorderTrav_of_not_empty (t : Tree) (he : isEmptyT t = false) :
    inorderTrav t = some (inorderNodes t) := by
  have hb : beginInOrder t = pushLeftSpine t [] := by
    simp [beginInOrder, he, mkInorderIter]
  have hnn : allNotNil (pushLeftSpine t []) := by
    apply allNotNil_pushLeftSpine
    intro u hu
    cases hu
  rw [inorderTrav, hb, visitOrderF_adequate _ _ le_rfl hnn, unroll_pushLeftSpine]
  simp [unroll]

theorem filterMap_infoOf_inorderNodes : ∀ t : Tree,
    (inorderNodes t).filterMap infoOf = inorderList t := by
  intro t
  induction t with
  | nil => rfl
  | node i l r s h ihl ihr =>
    cases i <;> simp [inorderNodes, inorderList, List.filterMap_append, ihl, ihr, infoOf]

/-- On every tree reachable by the mutating API, the full in-order traversal
succeeds and yields exactly the recursive in-order value list. -/
theorem inorderSeq_reachable (t : Tree) (ht : allFull t = true ∨ t = initTree)
    (hn : t ≠ Tree.nil) : inorderSeq t = some (inorderList t) := by
  rcases ht with hf | rfl
  · cases t with
    | nil => exact absurd rfl hn
    | node i l r s h =>
      rw [allFull, Bool.and_eq_true, Bool.and_eq_true] at hf
      have he : isEmptyT (Tree.node i l r s h) = false := by
        obtain ⟨v, rfl⟩ := Option.isSome_iff_exists.mp hf.1.1
        rfl
      rw [inorderSeq, inorderTrav_of_not_empty _ he]
      simp [filterMap_infoOf_inorderNodes]
  · rfl

theorem inorderList_length : ∀ t : Tree, (inorderList t).length = count t := by
  intro t
  induction t with
  | nil => rfl
  | node i l r s h ihl ihr =>
    cases i <;> simp [inorderList, count, ihl, ihr, Option.toList] <;> omega

/-! ## Concrete executions refuting claims the code violates -/

/-- C1: the balance invariant fails on the code.  The six inserts
`1, 3, 4, 6, 5, 2` all succeed, yet the resulting tree violates the AVL
balance condition on recomputed heights (the node storing `4` has a null left
child and a right chain `5 → 6` of height 2): the cached heights that drive
`rebalance` were corrupted by earlier rotations, so the needed rotation never
fires. -/
theorem c1_balance_violated :
    (runStrict ([1, 3, 4, 6, 5, 2].map Op.ins)).map avlBal = some false := by decide

/-- C2: the BST invariant fails on the code.  After the seven successful
inserts `2, 1, 4, 7, 8, 5, 6` and the successful `remove 5`, the full in-order
traversal yields `[2, 1, 4, 6, 7, 8]`, which is not strictly ascending:
`remove` replaced a value by `popleft` (the *minimum*) of a left subtree that
the broken balance had let grow to two nodes. -/
theorem c2_bst_violated :
    (runStrict ([2, 1, 4, 7, 8, 5, 6].map Op.ins ++ [Op.rem 5])).map
        (fun t => inorderSeq t) = some (some [2, 1, 4, 6, 7, 8]) ∧
      strictAsc [2, 1, 4, 6, 7, 8] = false := by
  constructor
  · decide
  · decide

/-- C4: inserting `1 .. 7` in ascending order succeeds, but `height()` returns
the corrupted cached value `4`, not `3` as the claim states; the recomputed
structural height is `3`, so rebalancing did occur — only the cached counter
is wrong (`rotate_left` adds `1` to the promoted node's stale height instead
of recomputing it). -/
theorem c4_height_is_4_not_3 :
    (runStrict ([1, 2, 3, 4, 5, 6, 7].map Op.ins)).map
      (fun t => (heightP t, (actualHeight t : Int))) = some (4, 3) := by decide

/-- C5 counterexample: on the two-element tree built by inserting `1` then
`2`, `pop()` succeeds and returns the maximum `2`, but `size()` is `2` both
before and after — `pop` never decrements `_size`. -/
theorem c5_pop_keeps_size :
    (runStrict [Op.ins 1, Op.ins 2]).map
      (fun t => match pop t with
        | .ok v t2 => some (v, sizeP t, sizeP t2)
        | .err _ _ => none) = some (some (2, 2, 2)) := by decide

/-- C7 counterexample: after inserting `1, 2, 3` the tree contains `2` and
`height()` returns (the corrupted cached) `3`; `update 2` then returns
`height() = 2` — the claim's "same height before and after" fails because
`update`'s `recalculate` repairs the stale cached height. -/
theorem c7_update_changes_height :
    (runStrict [Op.ins 1, Op.ins 2, Op.ins 3]).map
      (fun t => (heightP t, heightP (update 2 t))) = some (3, 2) := by decide

/-! ## C3, C5, C6: size bookkeeping and failure atomicity -/

/-- C3: for every sequence of `insert`/`remove`/`clear` operations on a
default-constructed tree, `size()` equals the number of successful inserts
minus the number of successful removes since the last `clear` (or
construction), and also equals the number of items yielded by a full in-order
traversal. -/
theorem c3_size_correct (ops : List Op) :
    sizeP (runOps ops).1 = ((runOps ops).2.1 : Int) - ((runOps ops).2.2 : Int) ∧
    ∃ items : List Int, inorderSeq (runOps ops).1 = some items ∧
      (items.length : Int) = sizeP (runOps ops).1 := by
  obtain ⟨hne, hful, hsz, hcnt⟩ := runOps_inv ops
  constructor
  · rw [hsz]
    omega
  · refine ⟨inorderList (runOps ops).1, inorderSeq_reachable _ hful hne, ?_⟩
    rw [inorderList_length]
    exact hsz.symm

/-- C5 amended: on every all-full non-null tree whose root `_size` matches the
element count, `pop()` and `popleft()` succeed but leave `size()` *unchanged*
(the source never decrements `_size` in them), while a successful `remove`
decreases `size()` by exactly one in total (each node of the search path,
including the root, is decremented exactly once; the delegation to
`pop`/`popleft` adds no second decrement). -/
theorem c5_amended (t : Tree) (hf : allFull t = true) (hn : t ≠ Tree.nil)
    (hs : sizeP t = (count t : Int)) :
    (∃ v t2, pop t = ResV.ok v t2 ∧ sizeP t2 = sizeP t) ∧
    (∃ v t2, popleft t = ResV.ok v t2 ∧ sizeP t2 = sizeP t) ∧
    (∀ d t2, remove d t = Res.ok t2 → sizeP t2 = sizeP t - 1) := by
  obtain ⟨hp, hpl⟩ := pop_popleft_spec t hf hn
  refine ⟨?_, ?_, ?_⟩
  · obtain ⟨v, t2, h1, h2, _⟩ := hp
    exact ⟨v, t2, h1, h2⟩
  · obtain ⟨v, t2, h1, h2, _⟩ := hpl
    exact ⟨v, t2, h1, h2⟩
  · intro d t2 hR
    obtain ⟨hc, hdisj, _, _⟩ := (remove_cases t d).2 t2 hR hf
    rcases hdisj with h2 | ⟨h1, h2⟩
    · exact h2
    · rw [h2, hs, h1]
      decide

/-- Witness for `c5_amended` on the concrete tree `{1, 2}`. -/
theorem c5_amended_witness :
    (∃ v t2, pop (Tree.node (some 1) Tree.nil (Tree.node (some 2) Tree.nil Tree.nil 1 1) 2 2)
        = ResV.ok v t2 ∧
      sizeP t2 = sizeP (Tree.node (some 1) Tree.nil (Tree.node (some 2) Tree.nil Tree.nil 1 1) 2 2)) ∧
    (∃ v t2, popleft (Tree.node (some 1) Tree.nil (Tree.node (some 2) Tree.nil Tree.nil 1 1) 2 2)
        = ResV.ok v t2 ∧
      sizeP t2 = sizeP (Tree.node (some 1) Tree.nil (Tree.node (some 2) Tree.nil Tree.nil 1 1) 2 2)) ∧
    (∀ d t2, remove d (Tree.node (some 1) Tree.nil (Tree.node (some 2) Tree.nil Tree.nil 1 1) 2 2)
        = Res.ok t2 →
      sizeP t2 = sizeP (Tree.node (some 1) Tree.nil (Tree.node (some 2) Tree.nil Tree.nil 1 1) 2 2) - 1) :=
  c5_amended (Tree.node (some 1) Tree.nil (Tree.node (some 2) Tree.nil Tree.nil 1 1) 2 2)
    (by decide) (by decide) (by decide)

/-- C6: a failed `insert` (duplicate key) and a failed `remove` (not found, or
empty tree) leave the tree completely unchanged — same structure, same values,
and the same cached `_size`/`_height` fields at every node (the conclusion
compares whole model trees, which carry every field). -/
theorem c6_failure_no_mutation (v : Int) (t : Tree) (m : String) (t2 : Tree) :
    (insert v t = Res.err m t2 → t2 = t) ∧ (remove v t = Res.err m t2 → t2 = t) :=
  ⟨fun hE => (insert_cases t v).1 m t2 hE, fun hE => (remove_cases t v).1 m t2 hE⟩

/-- Witness for `c6_failure_no_mutation`: a duplicate `insert 1` into the
singleton `{1}` and a `remove 5` from the empty tree both fail and leave the
tree as it was. -/
theorem c6_failure_no_mutation_witness :
    Tree.node (some 1) Tree.nil Tree.nil 1 1 = Tree.node (some 1) Tree.nil Tree.nil 1 1 ∧
      initTree = initTree :=
  ⟨(c6_failure_no_mutation 1 (Tree.node (some 1) Tree.nil Tree.nil 1 1)
      "Repeated information" (Tree.node (some 1) Tree.nil Tree.nil 1 1)).1 (by decide),
    (c6_failure_no_mutation 5 initTree
      "Can't remove from empty tree" initTree).2 (by decide)⟩

/-- C7 amended: on every all-full BST tree containing a key equal to `v`,
`update v` preserves `size()` and the in-order sequence of stored values, and
a subsequent `find` with a key equal to `v` returns `v`; when additionally
every node's cached height is consistent (`h = max(children) + 1`) and its
cached balance factor lies in `[-1, 1]`, the tree is left entirely unchanged
(same structure and same `height()`).  On reachable trees whose caches the
rotations have corrupted, `height()` may change (cf.
`c7_update_changes_height`): `update`'s `recalculate` repairs stale cached
heights and may even rotate. -/
theorem c7_amended (t : Tree) (v : Int) (hf : allFull t = true) (hb : bst t = true)
    (hm : v ∈ inorderList t) :
    sizeP (update v t) = sizeP t ∧ inorderList (update v t) = inorderList t ∧
    find v (update v t) = some v ∧ (cacheOK t = true → update v t = t) := by
  obtain ⟨hio, hsz, hfull, hbst, hid⟩ := update_spec t v hf hb hm
  refine ⟨hsz, hio, ?_, hid⟩
  exact find_present (update v t) v hfull hbst (by rw [hio]; exact hm)

/-- Witness for `c7_amended` on the balanced cache-consistent tree `{1, 2, 3}`
with `v = 2`. -/
theorem c7_amended_witness :
    sizeP (update 2 (Tree.node (some 2) (Tree.node (some 1) Tree.nil Tree.nil 1 1)
        (Tree.node (some 3) Tree.nil Tree.nil 1 1) 3 2)) =
      sizeP (Tree.node (some 2) (Tree.node (some 1) Tree.nil Tree.nil 1 1)
        (Tree.node (some 3) Tree.nil Tree.nil 1 1) 3 2) ∧
    inorderList (update 2 (Tree.node (some 2) (Tree.node (some 1) Tree.nil Tree.nil 1 1)
        (Tree.node (some 3) Tree.nil Tree.nil 1 1) 3 2)) =
      inorderList (Tree.node (some 2) (Tree.node (some 1) Tree.nil Tree.nil 1 1)
        (Tree.node (some 3) Tree.nil Tree.nil 1 1) 3 2) ∧
    find 2 (update 2 (Tree.node (some 2) (Tree.node (some 1) Tree.nil Tree.nil 1 1)
        (Tree.node (some 3) Tree.nil Tree.nil 1 1) 3 2)) = some 2 ∧
    (cacheOK (Tree.node (some 2) (Tree.node (some 1) Tree.nil Tree.nil 1 1)
        (Tree.node (some 3) Tree.nil Tree.nil 1 1) 3 2) = true →
      update 2 (Tree.node (some 2) (Tree.node (some 1) Tree.nil Tree.nil 1 1)
        (Tree.node (some 3) Tree.nil Tree.nil 1 1) 3 2) =
        Tree.node (some 2) (Tree.node (some 1) Tree.nil Tree.nil 1 1)
          (Tree.node (some 3) Tree.nil Tree.nil 1 1) 3 2) :=
  c7_amended (Tree.node (some 2) (Tree.node (some 1) Tree.nil Tree.nil 1 1)
      (Tree.node (some 3) Tree.nil Tree.nil 1 1) 3 2) 2
    (by decide) (by decide) (by decide)

/-! ## C8 / C9: iterator exhaustion behavior -/

/-- C8 counterexample: dereferencing an exhausted iterator (of either kind)
does **not** fail with the `IteratorExhausted` error (the thrown string
`"Iterator ran out of bounds"`): `operator*` performs no emptiness check, so
the access is undefined behavior (`front`/`top` on an empty container). -/
theorem c8_deref_exhausted_not_thrown :
    levelDeref [] = IterRes.ub ∧
      levelDeref [] ≠ IterRes.thrown "Iterator ran out of bounds" ∧
      inorderDeref [] = IterRes.ub ∧
      inorderDeref [] ≠ IterRes.thrown "Iterator ran out of bounds" := by decide

/-- C8 amended: for either iterator kind, an iterator equal to the
corresponding end iterator has an empty container; *dereferencing* it is
undefined behavior (no check, no error), while *advancing* it throws
`"Iterator ran out of bounds"`. -/
theorem c8_exhausted_behavior (q : LevelIter) (st : InorderIter)
    (hq : levelIterEq q endByLevel = true) (hst : inorderIterEq st endInOrder = true) :
    levelDeref q = IterRes.ub ∧
      levelNext q = IterRes.thrown "Iterator ran out of bounds" ∧
      inorderDeref st = IterRes.ub ∧
      inorderNext st = IterRes.thrown "Iterator ran out of bounds" := by
  have hq2 : q = [] := by
    cases q with
    | nil => rfl
    | cons x rest => simp [levelIterEq, endByLevel, mkLevelIter] at hq
  have hst2 : st = [] := by
    cases st with
    | nil => rfl
    | cons x rest => simp [inorderIterEq, endInOrder, mkInorderIter, pushLeftSpine] at hst
  subst hq2; subst hst2
  exact ⟨rfl, rfl, rfl, rfl⟩

/-- Witness for `c8_exhausted_behavior` at the empty iterators. -/
theorem c8_exhausted_behavior_witness :
    levelDeref [] = IterRes.ub ∧
      levelNext [] = IterRes.thrown "Iterator ran out of bounds" ∧
      inorderDeref [] = IterRes.ub ∧
      inorderNext [] = IterRes.thrown "Iterator ran out of bounds" :=
  c8_exhausted_behavior [] [] (by decide) (by decide)

/-- C9: advancing an exhausted iterator — one whose internal queue or stack is
empty — fails with the out-of-bounds error for both iterator kinds (the
advance functions are total, returning an explicit error result rather than
silently doing nothing). -/
theorem c9_advance_exhausted_throws :
    levelNext [] = IterRes.thrown "Iterator ran out of bounds" ∧
      inorderNext [] = IterRes.thrown "Iterator ran out of bounds" := ⟨rfl, rfl⟩

/-! ## C10: traversals of an empty tree -/

/-- C10: on every empty tree, `begin_in_order() == end_in_order()` and
`begin_by_level() == end_by_level()`, and both full traversals yield the empty
sequence without error. -/
theorem c10_empty_tree_traversals (t : Tree) (he : isEmptyT t = true) :
    inorderIterEq (beginInOrder t) endInOrder = true ∧
      levelIterEq (beginByLevel t) endByLevel = true ∧
      inorderTrav t = some [] ∧
      levelTrav t = some [] := by
  have hb : beginInOrder t = [] := by simp [beginInOrder, he, endInOrder, mkInorderIter, pushLeftSpine]
  have hb2 : beginByLevel t = [] := by simp [beginByLevel, he, endByLevel, mkLevelIter]
  refine ⟨?_, ?_, ?_, ?_⟩
  · rw [hb]; rfl
  · rw [hb2]; rfl
  · rw [inorderTrav, hb]; rfl
  · rw [levelTrav, hb2]; rfl

/-- Witness for `c10_empty_tree_traversals` at the default-constructed tree. -/
theorem c10_empty_tree_traversals_witness :
    inorderIterEq (beginInOrder initTree) endInOrder = true ∧
      levelIterEq (beginByLevel initTree) endByLevel = true ∧
      inorderTrav initTree = some [] ∧
      levelTrav initTree = some [] :=
  c10_empty_tree_traversals initTree (by decide)

end AvlSpec
